import Mathlib

/-!
Verification development for the `peval` partial-evaluation engine.

Python runtime values are modelled by an abstract type `V` in which Lean's
propositional equality plays the role of Python object identity (`is`): one
Python object corresponds to one element of `V`.  Fallible host operations
(`==` comparison, `__bool__` method calls, implicit truth coercion) are
modelled as functions into `Option`/`Except`, where `none`/`.error` stands
for a raised exception.
-/

namespace Peval

/-- Abstract value lattice element, translated from `peval/components/fold.py`,
class `Value`: `defined = False` is the "undefined"/Unknown element, otherwise
the payload is a runtime value. -/
inductive PValue (V : Type) where
  | undefined : PValue V
  | val : V → PValue V
  deriving DecidableEq

/-- Translated from `meet_values` in `peval/components/fold.py`.
`peq v1 v2` models the Python comparison `v1 == v2`: `some b` is a boolean
result, `none` is a raised exception.  The source initializes `eq = False`,
attempts `eq = v1 == v2` under a `try/except` that swallows the exception
(so `eq` stays `False` on a raise), after first short-circuiting on object
identity `v1 is v2` (Lean equality on `V`). -/
def meet_values {V : Type} [DecidableEq V] (peq : V → V → Option Bool)
    (val1 val2 : PValue V) : PValue V :=
  match val1, val2 with
  | .undefined, _ => .undefined
  | _, .undefined => .undefined
  | .val v1, .val v2 =>
    if v1 = v2 then .val v1
    else if (peq v1 v2).getD false then .val v1 else .undefined

/-- A Python `dict` with `String` keys, modelled as an association list
(first entry with a given key wins on lookup; insertion keeps keys unique). -/
abbrev SDict (α : Type) := List (String × α)

/-- Lookup in an association-list dictionary. -/
def dlookup {α : Type} (k : String) : SDict α → Option α
  | [] => none
  | (k', v) :: rest => if k' = k then some v else dlookup k rest

/-- An environment: a name-to-abstract-value dictionary
(`Environment.values` in `peval/components/fold.py`). -/
abbrev PEnv (V : Type) := SDict (PValue V)

/-- Translated from `meet_envs` in `peval/components/fold.py`: the result is
built from the keys only in the left dict (keeping their values), the keys
only in the right dict (keeping their values), and the keys in both
(mapped to `meet_values` of the two bound values). -/
def meet_envs {V : Type} [DecidableEq V] (peq : V → V → Option Bool)
    (env1 env2 : PEnv V) : PEnv V :=
  (env1.filter (fun p => (dlookup p.1 env2).isNone)) ++
  (env2.filter (fun p => (dlookup p.1 env1).isNone)) ++
  (env1.filterMap (fun p =>
    (dlookup p.1 env2).map (fun v2 => (p.1, meet_values peq p.2 v2))))

/-- Lookup through a filter whose predicate depends only on the key. -/
theorem dlookup_filter_key {α : Type} (q : String → Bool) (k : String)
    (e : SDict α) :
    dlookup k (e.filter (fun p => q p.1)) =
      if q k then dlookup k e else none := by
  induction e with
  | nil => simp [dlookup]
  | cons hd tl ih =>
    by_cases hk : hd.1 = k
    · subst hk
      by_cases hq : q hd.1
      · simp [List.filter, hq, dlookup, ih]
      · simp only [List.filter, hq, Bool.false_eq_true, if_neg hq, ite_eq_right_iff]
        simpa [hq] using ih
    · by_cases hq : q hd.1
      · simp [List.filter, hq, dlookup, hk, ih]
      · simp [List.filter, hq, dlookup, hk, ih]

/-- Lookup through a key-preserving `filterMap` driven by a lookup in
another dictionary. -/
theorem dlookup_filterMap_met {V : Type} [DecidableEq V]
    (peq : V → V → Option Bool) (k : String) (e1 : PEnv V) (env2 : PEnv V) :
    dlookup k (e1.filterMap (fun p =>
        (dlookup p.1 env2).map (fun v2 => (p.1, meet_values peq p.2 v2)))) =
      match dlookup k e1, dlookup k env2 with
      | some v1, some v2 => some (meet_values peq v1 v2)
      | _, _ => none := by
  induction e1 with
  | nil => simp [dlookup]
  | cons hd tl ih =>
    by_cases hk : hd.1 = k
    · subst hk
      cases h2 : dlookup hd.1 env2 with
      | none => simpa [List.filterMap, h2, dlookup] using ih
      | some v2 => simp [List.filterMap, h2, dlookup]
    · cases h2 : dlookup hd.1 env2 with
      | none => simpa [List.filterMap, h2, dlookup, hk] using ih
      | some v2 => simpa [List.filterMap, h2, dlookup, hk] using ih

/-- Lookup distributes over dictionary concatenation. -/
theorem dlookup_append {α : Type} (k : String) (a b : SDict α) :
    dlookup k (a ++ b) =
      match dlookup k a with
      | some v => some v
      | none => dlookup k b := by
  induction a with
  | nil => simp [dlookup]
  | cons hd tl ih =>
    by_cases hk : hd.1 = k
    · simp [dlookup, hk]
    · simp [dlookup, hk, ih]

/-- Full lookup characterization of `meet_envs`. -/
theorem meet_envs_dlookup {V : Type} [DecidableEq V] (peq : V → V → Option Bool)
    (env1 env2 : PEnv V) (k : String) :
    dlookup k (meet_envs peq env1 env2) =
      match dlookup k env1, dlookup k env2 with
      | some v1, some v2 => some (meet_values peq v1 v2)
      | some v1, none => some v1
      | none, some v2 => some v2
      | none, none => none := by
  unfold meet_envs
  rw [dlookup_append, dlookup_append]
  rw [dlookup_filter_key (fun s => (dlookup s env2).isNone) k env1]
  rw [dlookup_filter_key (fun s => (dlookup s env1).isNone) k env2]
  rw [dlookup_filterMap_met]
  cases h1 : dlookup k env1 with
  | none => cases h2 : dlookup k env2 with
    | none => simp [h1, h2]
    | some v2 => simp [h1, h2]
  | some v1 => cases h2 : dlookup k env2 with
    | none => simp [h1, h2]
    | some v2 => simp [h1, h2]

/-- A value that is identical to itself (one object) yet compares unequal
under `==`, like the Python float `nan`: `x is x` holds but `x == x` is
`False`. -/
inductive NanLike where
  | nan : NanLike
  deriving DecidableEq

/-- The `==` comparison of `NanLike`: always reports "not equal"
(as `float('nan') == float('nan')` does). -/
def nanEq : NanLike → NanLike → Option Bool := fun _ _ => some false

/-- C2 counterexample: for a NaN-like value `v` (a single object, so `v is v`
holds, while `v == v` is `False`, hence `v != v`), the claim requires
`meet(Known(v), Known(v)) = Unknown` by its "`v1 != v2` gives `Unknown`"
clause, but `meet_values` takes the identity fast path `v1 is v2` first and
returns `Known(v)`. -/
theorem claim_C2_counterexample :
    nanEq NanLike.nan NanLike.nan = some false ∧
    meet_values nanEq (PValue.val NanLike.nan) (PValue.val NanLike.nan) =
      PValue.val NanLike.nan :=
  ⟨rfl, rfl⟩

/-- C2 (amended): `meet_values` maps anything involving `Unknown` to
`Unknown`; two `Known` values meet to the first one when they are identical
(`v1 is v2`) or compare equal; and meet to `Unknown` when they are neither
identical nor compare equal — in particular, when the comparison raises
(`peq v1 v2 = none`) on non-identical values the result is `Unknown` and the
error is never propagated (`meet_values` is a total function). -/
theorem claim_C2_meet_values {V : Type} [DecidableEq V]
    (peq : V → V → Option Bool) (v1 v2 : V) (a : PValue V) :
    (meet_values peq PValue.undefined a = PValue.undefined) ∧
    (meet_values peq a PValue.undefined = PValue.undefined) ∧
    (v1 = v2 ∨ peq v1 v2 = some true →
      meet_values peq (PValue.val v1) (PValue.val v2) = PValue.val v1) ∧
    (v1 ≠ v2 → peq v1 v2 ≠ some true →
      meet_values peq (PValue.val v1) (PValue.val v2) = PValue.undefined) := by
  refine ⟨?_, ?_, ?_, ?_⟩
  · cases a <;> rfl
  · cases a <;> rfl
  · rintro (h | h)
    · subst h; simp [meet_values]
    · by_cases hid : v1 = v2
      · subst hid; simp [meet_values]
      · simp [meet_values, hid, h]
  · intro hne htrue
    have : (peq v1 v2).getD false = false := by
      cases h : peq v1 v2 with
      | none => rfl
      | some b =>
        cases b with
        | false => rfl
        | true => exact absurd h htrue
    simp [meet_values, hne, this]

/-- C2 witness: the amended theorem applied at a concrete instance
(`Bool` values with honest boolean equality). -/
theorem claim_C2_witness :
    meet_values (fun a b : Bool => some (a == b))
        (PValue.val true) (PValue.val false) = PValue.undefined ∧
    meet_values (fun a b : Bool => some (a == b))
        (PValue.val true) (PValue.val true) = PValue.val true ∧
    meet_values (fun a b : Bool => some (a == b))
        PValue.undefined (PValue.val false) = PValue.undefined :=
  ⟨(claim_C2_meet_values (fun a b : Bool => some (a == b)) true false
      (PValue.val false)).2.2.2 (by decide) (by decide),
   (claim_C2_meet_values (fun a b : Bool => some (a == b)) true true
      (PValue.val false)).2.2.1 (Or.inl rfl),
   (claim_C2_meet_values (fun a b : Bool => some (a == b)) true true
      (PValue.val false)).1⟩

/-- C10: `meet_envs` produces an environment whose domain is the union of the
operands' domains; a name bound in exactly one operand keeps its abstract
value unchanged, and a name bound in both is mapped to `meet_values` of the
two bound values. -/
theorem claim_C10_meet_envs {V : Type} [DecidableEq V]
    (peq : V → V → Option Bool) (env1 env2 : PEnv V) (k : String) :
    (∀ v1, dlookup k env1 = some v1 → dlookup k env2 = none →
      dlookup k (meet_envs peq env1 env2) = some v1) ∧
    (∀ v2, dlookup k env1 = none → dlookup k env2 = some v2 →
      dlookup k (meet_envs peq env1 env2) = some v2) ∧
    (∀ v1 v2, dlookup k env1 = some v1 → dlookup k env2 = some v2 →
      dlookup k (meet_envs peq env1 env2) = some (meet_values peq v1 v2)) ∧
    (dlookup k (meet_envs peq env1 env2) = none ↔
      (dlookup k env1 = none ∧ dlookup k env2 = none)) := by
  refine ⟨?_, ?_, ?_, ?_⟩
  · intro v1 h1 h2; rw [meet_envs_dlookup, h1, h2]
  · intro v2 h1 h2; rw [meet_envs_dlookup, h1, h2]
  · intro v1 v2 h1 h2; rw [meet_envs_dlookup, h1, h2]
  · rw [meet_envs_dlookup]
    cases h1 : dlookup k env1 <;> cases h2 : dlookup k env2 <;> simp

/-- C10 witness: the theorem applied at concrete two-entry environments,
exercising the "only left", "only right" and "both" cases. -/
theorem claim_C10_witness :
    dlookup "a" (meet_envs (fun a b : Bool => some (a == b))
        [("a", PValue.val true), ("c", PValue.val true)]
        [("b", PValue.val false), ("c", PValue.val false)]) =
      some (PValue.val true) ∧
    dlookup "b" (meet_envs (fun a b : Bool => some (a == b))
        [("a", PValue.val true), ("c", PValue.val true)]
        [("b", PValue.val false), ("c", PValue.val false)]) =
      some (PValue.val false) ∧
    dlookup "c" (meet_envs (fun a b : Bool => some (a == b))
        [("a", PValue.val true), ("c", PValue.val true)]
        [("b", PValue.val false), ("c", PValue.val false)]) =
      some PValue.undefined :=
  ⟨(claim_C10_meet_envs (fun a b : Bool => some (a == b)) _ _ "a").1
      (PValue.val true) rfl rfl,
   (claim_C10_meet_envs (fun a b : Bool => some (a == b)) _ _ "b").2.1
      (PValue.val false) rfl rfl,
   by
    have h := (claim_C10_meet_envs (fun a b : Bool => some (a == b))
        [("a", PValue.val true), ("c", PValue.val true)]
        [("b", PValue.val false), ("c", PValue.val false)] "c").2.2.1
        (PValue.val true) (PValue.val false) rfl rfl
    simpa [meet_values] using h⟩

/-!
## Speculative expression evaluator (`peval/core/expression.py`)

The evaluator's host-side operations are bundled in `HostOps`:
`dunderBool v` models `try_call_method(v, "__bool__")` — `none` is the
"failure" outcome (attribute missing, callee not pure, or the call raised),
`some w` is the object the method returned (a Python `__bool__` is not
guaranteed to return a `bool`).  `truth w` models the *implicit* coercion the
evaluator then performs on that object (`not bool_value`,
`... and bool_value`, `if bool_value`): `some b` is its boolean outcome,
`none` a raised exception.  `mkBool` embeds the Python booleans.

The recursive call `_peval_expression` made by each handler is abstracted as
an explicit argument `evalSub` (open recursion), threading an opaque
evaluator state `S` (the source's `State(gen_sym, temp_bindings)`).
An evaluator outcome `.error ()` is an exception propagated to the caller.
-/

/-- The host operations used by the evaluator on abstract Python values. -/
structure HostOps (V : Type) where
  dunderBool : V → Option V
  truth : V → Option Bool
  mkBool : Bool → V

/-- `KnownValue` from `peval/core/reify.py`. -/
structure KnownValue (V : Type) where
  value : V
  preferredName : Option String
  deriving DecidableEq

/-- The boolean operator kinds `ast.And` / `ast.Or`. -/
inductive BoolOpKind where
  | andOp : BoolOpKind
  | orOp : BoolOpKind
  deriving DecidableEq

/-- The expression subset of the Python AST that the claims under study
exercise.  `embeddedKnown` represents a raw `KnownValue` object placed in a
node position, which the source's dynamic typing permits (its default
dispatcher case reads "Pass through in case of type(node) == KnownValue"). -/
inductive Expr (V : Type) where
  | name (id : String)
  | const (v : V)
  | boolop (op : BoolOpKind) (values : List (Expr V))
  | ifexp (test body orelse : Expr V)
  | tuple (elts : List (Expr V))
  | embeddedKnown (value : V) (preferredName : Option String)

/-- A handler result: a `KnownValue` or a residual AST node. -/
inductive EvalRes (V : Type) where
  | known (kv : KnownValue V)
  | residual (node : Expr V)

/-- The node form of a result (used where the source sticks a result object
directly into an AST field). -/
def resAsNode {V : Type} : EvalRes V → Expr V
  | .known kv => .embeddedKnown kv.value kv.preferredName
  | .residual n => n

/-- `type(op) == ast.And` as a boolean. -/
def isAndOp : BoolOpKind → Bool
  | .andOp => true
  | .orOp => false

/-- Whether a Known boolean settles the whole boolean operator:
`(type(op) == ast.And and not bool_value) or (type(op) == ast.Or and
bool_value)` after the implicit coercion of `bool_value` to `tb`. -/
def scDetermines (op : BoolOpKind) (tb : Bool) : Bool :=
  match op with
  | .andOp => !tb
  | .orOp => tb

/-- The `for value in values` loop of `peval_boolop`
(`peval/core/expression.py`): evaluate each operand left to right; a Known
operand has `__bool__` tried on it — on failure it is skipped; on success the
returned object is coerced (an exception here propagates, see the source's
TODO note); a determining operand is returned as the whole result;
a residual operand is appended to `new_values`. -/
def peval_boolop_loop {V S : Type} (H : HostOps V)
    (evalSub : S → Expr V → Except Unit (S × EvalRes V))
    (op : BoolOpKind) :
    S → List (Expr V) → List (Expr V) → Except Unit (S × EvalRes V)
  | s, [], newValues =>
    match newValues with
    | [] => .ok (s, .known ⟨H.mkBool (isAndOp op), none⟩)
    | [n] => .ok (s, .residual n)
    | ns => .ok (s, .residual (.boolop op ns))
  | s, v :: rest, newValues =>
    match evalSub s v with
    | .error e => .error e
    | .ok (s', .known kv) =>
      match H.dunderBool kv.value with
      | none => peval_boolop_loop H evalSub op s' rest newValues
      | some w =>
        match H.truth w with
        | none => .error ()
        | some tb =>
          if scDetermines op tb then .ok (s', .known kv)
          else peval_boolop_loop H evalSub op s' rest newValues
    | .ok (s', .residual n) =>
      peval_boolop_loop H evalSub op s' rest (newValues ++ [n])

/-- `peval_boolop` from `peval/core/expression.py`: run the operand loop with
an initially empty `new_values`; zero surviving operands yield
`KnownValue(type(op) == ast.And)`, one is returned bare, several are wrapped
in a residual `BoolOp` node (these three cases live in the `[]` branch of
`peval_boolop_loop`). -/
def peval_boolop {V S : Type} (H : HostOps V)
    (evalSub : S → Expr V → Except Unit (S × EvalRes V))
    (op : BoolOpKind) (s : S) (values : List (Expr V)) :
    Except Unit (S × EvalRes V) :=
  peval_boolop_loop H evalSub op s values []

/-- Prefix view of the `peval_boolop` loop: processing a prefix of the
operand list either raises, short-circuits with a result, or continues with
an updated state and accumulated residual-operand list. -/
def boolopScan {V S : Type} (H : HostOps V)
    (evalSub : S → Expr V → Except Unit (S × EvalRes V))
    (op : BoolOpKind) :
    S → List (Expr V) → List (Expr V) →
      Except Unit ((S × List (Expr V)) ⊕ (S × EvalRes V))
  | s, [], acc => .ok (.inl (s, acc))
  | s, v :: rest, acc =>
    match evalSub s v with
    | .error e => .error e
    | .ok (s', .known kv) =>
      match H.dunderBool kv.value with
      | none => boolopScan H evalSub op s' rest acc
      | some w =>
        match H.truth w with
        | none => .error ()
        | some tb =>
          if scDetermines op tb then .ok (.inr (s', .known kv))
          else boolopScan H evalSub op s' rest acc
    | .ok (s', .residual n) => boolopScan H evalSub op s' rest (acc ++ [n])

/-- The boolop loop decomposes along a split of its operand list: first
the prefix is scanned, and unless it raised or short-circuited, the loop
continues on the suffix. -/
theorem peval_boolop_loop_append {V S : Type} (H : HostOps V)
    (evalSub : S → Expr V → Except Unit (S × EvalRes V))
    (op : BoolOpKind) (xs ys : List (Expr V)) (s : S) (acc : List (Expr V)) :
    peval_boolop_loop H evalSub op s (xs ++ ys) acc =
      match boolopScan H evalSub op s xs acc with
      | .error e => .error e
      | .ok (.inr r) => .ok r
      | .ok (.inl (s', acc')) => peval_boolop_loop H evalSub op s' ys acc' := by
  induction xs generalizing s acc with
  | nil => simp [boolopScan]
  | cons v rest ih =>
    simp only [List.cons_append, peval_boolop_loop, boolopScan]
    cases hv : evalSub s v with
    | error e => rfl
    | ok p =>
      obtain ⟨s', r⟩ := p
      cases r with
      | known kv =>
        cases hb : H.dunderBool kv.value with
        | none => simpa [hb] using ih s' acc
        | some w =>
          cases ht : H.truth w with
          | none => simp [hb, ht]
          | some tb =>
            by_cases hd : scDetermines op tb
            · simp [hb, ht, hd]
            · simpa [hb, ht, hd] using ih s' acc
      | residual n => simpa using ih s' (acc ++ [n])

/-- Scanning also decomposes along a split of the operand list. -/
theorem boolopScan_append {V S : Type} (H : HostOps V)
    (evalSub : S → Expr V → Except Unit (S × EvalRes V))
    (op : BoolOpKind) (xs ys : List (Expr V)) (s : S) (acc : List (Expr V)) :
    boolopScan H evalSub op s (xs ++ ys) acc =
      match boolopScan H evalSub op s xs acc with
      | .error e => .error e
      | .ok (.inr r) => .ok (.inr r)
      | .ok (.inl (s', acc')) => boolopScan H evalSub op s' ys acc' := by
  induction xs generalizing s acc with
  | nil => simp [boolopScan]
  | cons v rest ih =>
    simp only [List.cons_append, boolopScan]
    cases hv : evalSub s v with
    | error e => rfl
    | ok p =>
      obtain ⟨s', r⟩ := p
      cases r with
      | known kv =>
        cases hb : H.dunderBool kv.value with
        | none => simpa [hb] using ih s' acc
        | some w =>
          cases ht : H.truth w with
          | none => simp [hb, ht]
          | some tb =>
            by_cases hd : scDetermines op tb
            · simp [hb, ht, hd]
            · simpa [hb, ht, hd] using ih s' acc
      | residual n => simpa using ih s' (acc ++ [n])

/-- C4: `peval_boolop` evaluates operands left to right; the first Known
operand whose boolean value determines the result (falsy under `and`, truthy
under `or`) is returned as the whole result, with the operands after it never
evaluated (the conclusion does not depend on `post`, which is universally
quantified); a non-determining Known operand is dropped (the residual
accumulator is unchanged); if zero residual operands survive the result is
`KnownValue(type(op) == ast.And)`; one survivor is returned bare; several
survivors are wrapped in a residual `BoolOp` node. -/
theorem claim_C4_peval_boolop {V S : Type} (H : HostOps V)
    (evalSub : S → Expr V → Except Unit (S × EvalRes V)) (op : BoolOpKind)
    (values pre post acc rest : List (Expr V)) (v n n1 n2 : Expr V)
    (s s1 s2 : S) (kv : KnownValue V) (w : V) (tb : Bool) :
    (boolopScan H evalSub op s pre [] = .ok (.inl (s1, acc)) →
     evalSub s1 v = .ok (s2, .known kv) →
     H.dunderBool kv.value = some w → H.truth w = some tb →
     scDetermines op tb = true →
     peval_boolop H evalSub op s (pre ++ v :: post) = .ok (s2, .known kv)) ∧
    (boolopScan H evalSub op s pre [] = .ok (.inl (s1, acc)) →
     evalSub s1 v = .ok (s2, .known kv) →
     H.dunderBool kv.value = some w → H.truth w = some tb →
     scDetermines op tb = false →
     boolopScan H evalSub op s (pre ++ [v]) [] = .ok (.inl (s2, acc))) ∧
    (boolopScan H evalSub op s values [] = .ok (.inl (s1, [])) →
     peval_boolop H evalSub op s values =
       .ok (s1, .known ⟨H.mkBool (isAndOp op), none⟩)) ∧
    (boolopScan H evalSub op s values [] = .ok (.inl (s1, [n])) →
     peval_boolop H evalSub op s values = .ok (s1, .residual n)) ∧
    (boolopScan H evalSub op s values [] = .ok (.inl (s1, n1 :: n2 :: rest)) →
     peval_boolop H evalSub op s values =
       .ok (s1, .residual (.boolop op (n1 :: n2 :: rest)))) := by
  refine ⟨?_, ?_, ?_, ?_, ?_⟩
  · intro hscan hv hb ht hd
    unfold peval_boolop
    rw [peval_boolop_loop_append, hscan]
    simp [peval_boolop_loop, hv, hb, ht, hd]
  · intro hscan hv hb ht hd
    rw [boolopScan_append, hscan]
    simp [boolopScan, hv, hb, ht, hd]
  · intro hscan
    unfold peval_boolop
    have h := peval_boolop_loop_append H evalSub op values [] s []
    rw [List.append_nil] at h
    rw [h, hscan]
    rfl
  · intro hscan
    unfold peval_boolop
    have h := peval_boolop_loop_append H evalSub op values [] s []
    rw [List.append_nil] at h
    rw [h, hscan]
    rfl
  · intro hscan
    unfold peval_boolop
    have h := peval_boolop_loop_append H evalSub op values [] s []
    rw [List.append_nil] at h
    rw [h, hscan]
    rfl

/-!
### Concrete test model

`TestV` is a small universe of Python values used to instantiate the
parametric handlers on concrete inputs: `pybool b` are the booleans,
`obj k` are generic truthy non-literal objects, `weird` is an object whose
(pure-tagged) `__bool__` returns another `weird` object whose implicit truth
coercion raises, and `noBool` is an object on which `try_call_method(·,
"__bool__")` fails (e.g. its `__bool__` is not recognized as a pure
callable).  `testEval` is the sub-evaluator for names and constants,
translated from `handle_Name` / `handle_Constant` and the default
pass-through case of `_peval_expression_dispatcher`. -/
inductive TestV where
  | pybool (b : Bool)
  | obj (k : Nat)
  | weird
  | noBool
  deriving DecidableEq

/-- Host operations of the concrete test model. -/
def testOps : HostOps TestV where
  dunderBool := fun v =>
    match v with
    | .pybool b => some (.pybool b)
    | .obj _ => some (.pybool true)
    | .weird => some .weird
    | .noBool => none
  truth := fun v =>
    match v with
    | .pybool b => some b
    | .obj _ => some true
    | .weird => none
    | .noBool => some true
  mkBool := .pybool

/-- Concrete sub-evaluator: `handle_Name` returns
`KnownValue(bindings[name], preferred_name=name)` for a bound name and the
node itself otherwise; constants become `KnownValue`s; any other node is
passed through as residual (the dispatcher's default case). -/
def testEval (binds : SDict TestV) :
    Unit → Expr TestV → Except Unit (Unit × EvalRes TestV) :=
  fun s e =>
    match e with
    | .name n =>
      match dlookup n binds with
      | some v => .ok (s, .known ⟨v, some n⟩)
      | none => .ok (s, .residual (.name n))
    | .const v => .ok (s, .known ⟨v, none⟩)
    | e => .ok (s, .residual e)

/-- C4 witness: `u or t or boom` with `u` unbound (residual), `t` bound to
`True`: the `t` operand short-circuits and is returned whole; `boom` is
never evaluated. -/
theorem claim_C4_witness :
    peval_boolop testOps (testEval [("t", TestV.pybool true)]) BoolOpKind.orOp
        () [Expr.name "u", Expr.name "t", Expr.name "boom"] =
      .ok ((), .known ⟨TestV.pybool true, some "t"⟩) :=
  (claim_C4_peval_boolop testOps (testEval [("t", TestV.pybool true)])
      BoolOpKind.orOp [] [Expr.name "u"] [Expr.name "boom"] [Expr.name "u"]
      [] (Expr.name "t") (Expr.name "u") (Expr.name "u") (Expr.name "u")
      () () () ⟨TestV.pybool true, some "t"⟩ (TestV.pybool true) true).1
    rfl rfl rfl rfl rfl

/-- C1: the claimed totality of exception recovery fails in `peval_boolop`.
When a Known operand's `__bool__()` call succeeds but returns a non-boolean
object (reachable with a pure-tagged user `__bool__`), the subsequent
implicit coercion `not bool_value` / `... and bool_value` raises, and the
source catches nothing there (its own comment reads "TODO: the following may
raise an exception if __bool__() returns something weird"): the exception
escapes `peval_boolop` to its caller.  Here: `x and y` with `x` bound to
such an object makes the evaluator raise instead of producing a residual. -/
theorem claim_C1_boolop_exception :
    peval_boolop testOps
        (testEval [("x", TestV.weird), ("y", TestV.pybool true)])
        BoolOpKind.andOp () [Expr.name "x", Expr.name "y"] = .error () :=
  rfl

/-- The shared "cannot decide the test" tail of `handle_IfExp`
(`peval/core/expression.py`): evaluate *both* branches, reify them, and
return a residual conditional whose `test` field receives `test_value`
verbatim — if `test_value` is a `KnownValue` object it is embedded in the
node unreified. -/
def peval_ifexp_residual {V S : Type} (evalSub : S → Expr V → Except Unit (S × EvalRes V))
    (reifyRes : S → EvalRes V → S × Expr V)
    (testValue : EvalRes V) (body orelse : Expr V) (s1 : S) :
    Except Unit (S × EvalRes V) :=
  match evalSub s1 body with
  | .error e => .error e
  | .ok (s2, newBody) =>
    match evalSub s2 orelse with
    | .error e => .error e
    | .ok (s3, newOrelse) =>
      let p4 := reifyRes s3 newBody
      let p5 := reifyRes p4.1 newOrelse
      .ok (p5.1, .residual (.ifexp (resAsNode testValue) p4.2 p5.2))

/-- `handle_IfExp` from `peval/core/expression.py`: evaluate the test; if it
is Known, try `__bool__` on it; on success coerce the returned object
(`node.body if bool_value else node.orelse` — a raise here propagates) and
evaluate only the taken branch, returning its result directly; otherwise
(test not Known, or `__bool__` failed) fall through to evaluating both
branches and returning a residual conditional. -/
def handle_IfExp {V S : Type} (H : HostOps V)
    (evalSub : S → Expr V → Except Unit (S × EvalRes V))
    (reifyRes : S → EvalRes V → S × Expr V)
    (test body orelse : Expr V) (s : S) : Except Unit (S × EvalRes V) :=
  match evalSub s test with
  | .error e => .error e
  | .ok (s1, .known kv) =>
    match H.dunderBool kv.value with
    | some w =>
      match H.truth w with
      | none => .error ()
      | some b => evalSub s1 (if b then body else orelse)
    | none => peval_ifexp_residual evalSub reifyRes (.known kv) body orelse s1
  | .ok (s1, .residual n) =>
    peval_ifexp_residual evalSub reifyRes (.residual n) body orelse s1

/-- C5 counterexample: in `t if t-known else ...` shape, take the ternary
`x if t else y` with `t` bound to an object on which `__bool__` cannot be
called (`try_call_method` fails, e.g. the method is not a recognized pure
callable).  The test evaluates to a Known value (second conjunct), yet
`handle_IfExp` does not return the taken branch's result: it evaluates both
branches and returns a residual conditional (first conjunct) — whereas the
claim requires the result of evaluating only the taken branch whenever the
test is Known. -/
theorem claim_C5_counterexample :
    handle_IfExp testOps (testEval [("t", TestV.noBool)])
        (fun s r => (s, resAsNode r))
        (Expr.name "t") (Expr.name "x") (Expr.name "y") () =
      .ok ((), .residual (.ifexp (.embeddedKnown TestV.noBool (some "t"))
        (.name "x") (.name "y"))) ∧
    testEval [("t", TestV.noBool)] () (Expr.name "t") =
      .ok ((), .known ⟨TestV.noBool, some "t"⟩) ∧
    testEval [("t", TestV.noBool)] () (Expr.name "x") =
      .ok ((), .residual (.name "x")) :=
  ⟨rfl, rfl, rfl⟩

/-- C5 (amended): when the test evaluates to a Known value *and its boolean
coercion succeeds*, only the taken branch is evaluated and its result is
returned directly — the result does not depend on the untaken branch
(second conjunct, where the untaken alternatives `orelse` and `orelse'` are
both universally quantified); when the test is not Known, or is Known but
its boolean coercion fails, both branches are evaluated independently and a
residual conditional node is returned. -/
theorem claim_C5_handle_ifexp {V S : Type} (H : HostOps V)
    (evalSub : S → Expr V → Except Unit (S × EvalRes V))
    (reifyRes : S → EvalRes V → S × Expr V)
    (test body orelse orelse' n : Expr V) (s s1 s2 s3 : S)
    (kv : KnownValue V) (w : V) (b : Bool) (nb no : EvalRes V) :
    (evalSub s test = .ok (s1, .known kv) →
     H.dunderBool kv.value = some w → H.truth w = some b →
     handle_IfExp H evalSub reifyRes test body orelse s =
       evalSub s1 (if b then body else orelse)) ∧
    (evalSub s test = .ok (s1, .known kv) →
     H.dunderBool kv.value = some w → H.truth w = some true →
     handle_IfExp H evalSub reifyRes test body orelse s =
       handle_IfExp H evalSub reifyRes test body orelse' s) ∧
    (evalSub s test = .ok (s1, .residual n) →
     evalSub s1 body = .ok (s2, nb) → evalSub s2 orelse = .ok (s3, no) →
     handle_IfExp H evalSub reifyRes test body orelse s =
       .ok ((reifyRes (reifyRes s3 nb).1 no).1,
         .residual (.ifexp n (reifyRes s3 nb).2
           (reifyRes (reifyRes s3 nb).1 no).2))) ∧
    (evalSub s test = .ok (s1, .known kv) →
     H.dunderBool kv.value = none →
     evalSub s1 body = .ok (s2, nb) → evalSub s2 orelse = .ok (s3, no) →
     handle_IfExp H evalSub reifyRes test body orelse s =
       .ok ((reifyRes (reifyRes s3 nb).1 no).1,
         .residual (.ifexp (.embeddedKnown kv.value kv.preferredName)
           (reifyRes s3 nb).2 (reifyRes (reifyRes s3 nb).1 no).2))) := by
  refine ⟨?_, ?_, ?_, ?_⟩
  · intro hT hB hW
    simp [handle_IfExp, hT, hB, hW]
  · intro hT hB hW
    simp [handle_IfExp, hT, hB, hW]
  · intro hT hBody hOrelse
    simp [handle_IfExp, peval_ifexp_residual, hT, hBody, hOrelse, resAsNode]
  · intro hT hB hBody hOrelse
    simp [handle_IfExp, peval_ifexp_residual, hT, hB, hBody, hOrelse,
      resAsNode]

/-- C5 witness: `a if c else 1` with `c` bound to `False`: the amended
theorem's taken-branch clause applied concretely — only the `orelse` branch
is evaluated and its result is returned directly. -/
theorem claim_C5_witness :
    handle_IfExp testOps (testEval [("c", TestV.pybool false)])
        (fun s r => (s, resAsNode r))
        (Expr.name "c") (Expr.name "a") (Expr.const (TestV.obj 1)) () =
      .ok ((), .known ⟨TestV.obj 1, none⟩) := by
  have h := (claim_C5_handle_ifexp testOps (testEval [("c", TestV.pybool false)])
      (fun s r => (s, resAsNode r))
      (Expr.name "c") (Expr.name "a") (Expr.const (TestV.obj 1))
      (Expr.const (TestV.obj 1)) (Expr.name "c") () () () ()
      ⟨TestV.pybool false, some "c"⟩ (TestV.pybool false) false
      (.known ⟨TestV.pybool false, some "c"⟩)
      (.known ⟨TestV.pybool false, some "c"⟩)).1 rfl rfl rfl
  rw [h]
  rfl

/-!
## Control-flow graph builder (`peval/core/cfg.py`)

Node identities (the Python `id()` of the statement objects) are modelled as
natural numbers.  A `Graph` stores the node-id set and the edge set; the
source keeps per-node parent/child identity sets, which is extensionally the
edge set modelled here.
-/

/-- A CFG: node ids plus directed edges. -/
structure Graph where
  nodeIds : List Nat
  edges : List (Nat × Nat)

/-- `Graph.add_edge`. -/
def Graph.addEdge (g : Graph) (src dest : Nat) : Graph :=
  { g with edges := g.edges ++ [(src, dest)] }

/-- `Graph.update`: merge another graph's nodes and edges. -/
def Graph.updateG (g other : Graph) : Graph :=
  { nodeIds := g.nodeIds ++ other.nodeIds, edges := g.edges ++ other.edges }

/-- Add one edge from every source in a list to a common destination
(the `for ... : graph.add_edge(..., final_cfg.enter)` loops). -/
def Graph.addEdgesTo (g : Graph) (srcs : List Nat) (dest : Nat) : Graph :=
  srcs.foldl (fun g s => g.addEdge s dest) g

/-- The jump bookkeeping of `peval/core/cfg.py`, class `Jumps`. -/
structure Jumps where
  returns : List Nat
  breaks : List Nat
  continues : List Nat
  raises : List Nat

/-- `ControlFlowSubgraph` from `peval/core/cfg.py`. -/
structure ControlFlowSubgraph where
  graph : Graph
  enter : Nat
  exits : List Nat
  jumps : Jumps

/-- The `pass_through` helper inside `_build_try_finally_block_cfg`: a
non-empty jump list is re-reported as the finally body's exits, an empty one
stays empty.  (The edges it adds are handled by `Graph.addEdgesTo`.) -/
def passThrough (finalExits : List Nat) (jumpList : List Nat) : List Nat :=
  if jumpList.length > 0 then finalExits else []

/-- The splice performed by `_build_try_finally_block_cfg`
(`peval/core/cfg.py`) once the try/handlers/else subgraph `tryCfg` and the
non-empty finally-body subgraph `finalCfg` have been built: merge the graphs,
route every normal exit and every recorded return/raise/continue/break jump
of `tryCfg` to the finally body's entry, report the finally body's exits as
the normal exits, and re-split the jump kinds through `pass_through`. -/
def splice_try_finally (tryCfg finalCfg : ControlFlowSubgraph) :
    ControlFlowSubgraph :=
  let g0 := tryCfg.graph.updateG finalCfg.graph
  let g1 := g0.addEdgesTo tryCfg.exits finalCfg.enter
  let g2 := g1.addEdgesTo tryCfg.jumps.returns finalCfg.enter
  let g3 := g2.addEdgesTo tryCfg.jumps.raises finalCfg.enter
  let g4 := g3.addEdgesTo tryCfg.jumps.continues finalCfg.enter
  let g5 := g4.addEdgesTo tryCfg.jumps.breaks finalCfg.enter
  { graph := g5
    enter := tryCfg.enter
    exits := finalCfg.exits
    jumps :=
      { returns := passThrough finalCfg.exits tryCfg.jumps.returns
        raises := passThrough finalCfg.exits tryCfg.jumps.raises
        continues := passThrough finalCfg.exits tryCfg.jumps.continues
        breaks := passThrough finalCfg.exits tryCfg.jumps.breaks } }

/-- Edge membership after `Graph.addEdgesTo`. -/
theorem Graph.mem_addEdgesTo (g : Graph) (srcs : List Nat) (dest : Nat)
    (p : Nat × Nat) :
    p ∈ (g.addEdgesTo srcs dest).edges ↔
      p ∈ g.edges ∨ (p.1 ∈ srcs ∧ p.2 = dest) := by
  induction srcs generalizing g with
  | nil => simp [Graph.addEdgesTo]
  | cons hd tl ih =>
    show p ∈ (Graph.addEdgesTo (g.addEdge hd dest) tl dest).edges ↔ _
    rw [ih]
    simp only [Graph.addEdge, List.mem_append, List.mem_cons,
      List.mem_singleton, List.mem_cons]
    constructor
    · rintro ((h | h) | h)
      · exact Or.inl h
      · simp only [List.not_mem_nil, or_false] at h
        subst h
        exact Or.inr ⟨Or.inl rfl, rfl⟩
      · exact Or.inr ⟨Or.inr h.1, h.2⟩
    · rintro (h | ⟨(h | h), hd2⟩)
      · exact Or.inl (Or.inl h)
      · left; right
        obtain ⟨p1, p2⟩ := p
        simp_all
      · exact Or.inr ⟨h, hd2⟩

/-- C7: after the finally splice, every exit path out of the
try/handlers/else part — each normal exit and each recorded return, raise,
break, continue jump — has an edge to the finally body's entry; the spliced
subgraph's normal exits are the finally body's exits; and each jump kind is
reported as the finally body's exits when it was non-empty before the
splice, and stays empty otherwise.  The subgraph's entry is unchanged. -/
theorem claim_C7_try_finally (tryCfg finalCfg : ControlFlowSubgraph)
    (e : Nat) :
    (e ∈ tryCfg.exits ∨ e ∈ tryCfg.jumps.returns ∨ e ∈ tryCfg.jumps.raises ∨
       e ∈ tryCfg.jumps.continues ∨ e ∈ tryCfg.jumps.breaks →
     (e, finalCfg.enter) ∈ (splice_try_finally tryCfg finalCfg).graph.edges) ∧
    ((splice_try_finally tryCfg finalCfg).exits = finalCfg.exits) ∧
    ((splice_try_finally tryCfg finalCfg).enter = tryCfg.enter) ∧
    (tryCfg.jumps.returns ≠ [] →
      (splice_try_finally tryCfg finalCfg).jumps.returns = finalCfg.exits) ∧
    (tryCfg.jumps.returns = [] →
      (splice_try_finally tryCfg finalCfg).jumps.returns = []) ∧
    (tryCfg.jumps.raises ≠ [] →
      (splice_try_finally tryCfg finalCfg).jumps.raises = finalCfg.exits) ∧
    (tryCfg.jumps.raises = [] →
      (splice_try_finally tryCfg finalCfg).jumps.raises = []) ∧
    (tryCfg.jumps.continues ≠ [] →
      (splice_try_finally tryCfg finalCfg).jumps.continues = finalCfg.exits) ∧
    (tryCfg.jumps.continues = [] →
      (splice_try_finally tryCfg finalCfg).jumps.continues = []) ∧
    (tryCfg.jumps.breaks ≠ [] →
      (splice_try_finally tryCfg finalCfg).jumps.breaks = finalCfg.exits) ∧
    (tryCfg.jumps.breaks = [] →
      (splice_try_finally tryCfg finalCfg).jumps.breaks = []) := by
  refine ⟨?_, rfl, rfl, ?_, ?_, ?_, ?_, ?_, ?_, ?_, ?_⟩
  · intro he
    show (e, finalCfg.enter) ∈ (Graph.addEdgesTo _ tryCfg.jumps.breaks _).edges
    rw [Graph.mem_addEdgesTo]
    rcases he with h | h | h | h | h
    · left
      rw [Graph.mem_addEdgesTo]; left
      rw [Graph.mem_addEdgesTo]; left
      rw [Graph.mem_addEdgesTo]; left
      rw [Graph.mem_addEdgesTo]
      exact Or.inr ⟨h, rfl⟩
    · left
      rw [Graph.mem_addEdgesTo]; left
      rw [Graph.mem_addEdgesTo]; left
      rw [Graph.mem_addEdgesTo]
      exact Or.inr ⟨h, rfl⟩
    · left
      rw [Graph.mem_addEdgesTo]; left
      rw [Graph.mem_addEdgesTo]
      exact Or.inr ⟨h, rfl⟩
    · left
      rw [Graph.mem_addEdgesTo]
      exact Or.inr ⟨h, rfl⟩
    · exact Or.inr ⟨h, rfl⟩
  · intro h
    simp [splice_try_finally, passThrough, List.length_pos, h]
  · intro h
    simp [splice_try_finally, passThrough, h]
  · intro h
    simp [splice_try_finally, passThrough, List.length_pos, h]
  · intro h
    simp [splice_try_finally, passThrough, h]
  · intro h
    simp [splice_try_finally, passThrough, List.length_pos, h]
  · intro h
    simp [splice_try_finally, passThrough, h]
  · intro h
    simp [splice_try_finally, passThrough, List.length_pos, h]
  · intro h
    simp [splice_try_finally, passThrough, h]

/-- C7 witness: a concrete splice — try-part with one normal exit (node 1),
one return jump (node 2) and one raise origin (node 3), finally body
entering at node 10 with exit 11: every one of those nodes gets an edge to
node 10, the spliced exits are the finally exits, the non-empty jump kinds
become the finally exits, and the empty ones stay empty. -/
theorem claim_C7_witness :
    ((1, 10) ∈ (splice_try_finally
      ⟨⟨[0, 1, 2, 3], [(0, 1)]⟩, 0, [1], ⟨[2], [], [], [3]⟩⟩
      ⟨⟨[10, 11], [(10, 11)]⟩, 10, [11], ⟨[], [], [], []⟩⟩).graph.edges) ∧
    ((2, 10) ∈ (splice_try_finally
      ⟨⟨[0, 1, 2, 3], [(0, 1)]⟩, 0, [1], ⟨[2], [], [], [3]⟩⟩
      ⟨⟨[10, 11], [(10, 11)]⟩, 10, [11], ⟨[], [], [], []⟩⟩).graph.edges) ∧
    ((splice_try_finally
      ⟨⟨[0, 1, 2, 3], [(0, 1)]⟩, 0, [1], ⟨[2], [], [], [3]⟩⟩
      ⟨⟨[10, 11], [(10, 11)]⟩, 10, [11], ⟨[], [], [], []⟩⟩).jumps.returns
        = [11]) ∧
    ((splice_try_finally
      ⟨⟨[0, 1, 2, 3], [(0, 1)]⟩, 0, [1], ⟨[2], [], [], [3]⟩⟩
      ⟨⟨[10, 11], [(10, 11)]⟩, 10, [11], ⟨[], [], [], []⟩⟩).jumps.breaks
        = []) :=
  ⟨(claim_C7_try_finally _ _ 1).1 (Or.inl (by decide)),
   (claim_C7_try_finally _ _ 2).1 (Or.inr (Or.inl (by decide))),
   (claim_C7_try_finally _ _ 0).2.2.2.1 (by decide),
   (claim_C7_try_finally _ _ 0).2.2.2.2.2.2.2.2.2.2 rfl⟩

/-!
## Pass orchestrator (`peval/highlevelapi.py`, `_run_components`)

The tree type `T`, binding-table type `C`, the structural tree equality
`ast_equal` and the four passes are abstract parameters here: the claim is
about the orchestrator's `while True` loop, whose body applies the passes in
order and exits exactly when one more full application left the tree
`ast_equal`-equal and the binding table equal.  The passes' determinism
modulo `ast_equal` (`PassCongruent` below) is the spec's own hard
determinism requirement and is taken as a hypothesis.
-/

/-- The `for func in (inline_functions, fold, prune_cfg, prune_assignments)`
body of `_run_components`: thread the `(tree, bindings)` pair through a list
of passes. -/
def run_pass_list {T C : Type} (passes : List (T × C → T × C)) (p : T × C) :
    T × C :=
  passes.foldl (fun q f => f q) p

/-- A pass respects structural tree equality: on `ast_equal` trees and equal
binding tables it produces `ast_equal` trees and equal binding tables. -/
def PassCongruent {T C : Type} (astEq : T → T → Prop) (f : T × C → T × C) :
    Prop :=
  ∀ p p' : T × C, astEq p.1 p'.1 → p.2 = p'.2 →
    astEq (f p).1 (f p').1 ∧ (f p).2 = (f p').2

/-- The `while True` loop of `_run_components`: from `(tree, constants)`,
apply `step` (the four-pass sweep); if the result is `ast_equal`-equal in
the tree and equal in the bindings, return the *new* pair; otherwise loop on
the new pair. -/
inductive RunComponents {T C : Type} (astEq : T → T → Prop)
    (step : T × C → T × C) : T × C → T × C → Prop where
  | done (t : T) (c : C) :
      astEq (step (t, c)).1 t → (step (t, c)).2 = c →
      RunComponents astEq step (t, c) (step (t, c))
  | next (t : T) (c : C) (r : T × C) :
      ¬(astEq (step (t, c)).1 t ∧ (step (t, c)).2 = c) →
      RunComponents astEq step (step (t, c)) r →
      RunComponents astEq step (t, c) r

/-- A list of congruent passes composes to a congruent sweep. -/
theorem run_pass_list_congruent {T C : Type} (astEq : T → T → Prop)
    (passes : List (T × C → T × C))
    (h : ∀ f ∈ passes, PassCongruent astEq f) :
    PassCongruent astEq (run_pass_list passes) := by
  induction passes with
  | nil => intro p p' h1 h2; exact ⟨h1, h2⟩
  | cons f fs ih =>
    intro p p' h1 h2
    have hf := h f (List.mem_cons_self f fs) p p' h1 h2
    exact ih (fun g hg => h g (List.mem_cons_of_mem f hg)) (f p) (f p')
      hf.1 hf.2

/-- C3: when `_run_components` returns a pair `q = (tree, bindings)`,
applying the four passes (`inline_functions`, `fold`, `prune_cfg`,
`prune_assignments`, each respecting `ast_equal`) once more to `q` yields a
tree `ast_equal` to `tree` and a binding table equal to `bindings`: the
fixed point, once reached, is stable. -/
theorem claim_C3_fixed_point_stable {T C : Type} (astEq : T → T → Prop)
    (inlinePass foldPass pruneCfgPass pruneAsgPass : T × C → T × C)
    (p q : T × C)
    (hrun : RunComponents astEq
      (run_pass_list [inlinePass, foldPass, pruneCfgPass, pruneAsgPass]) p q)
    (h1 : PassCongruent astEq inlinePass)
    (h2 : PassCongruent astEq foldPass)
    (h3 : PassCongruent astEq pruneCfgPass)
    (h4 : PassCongruent astEq pruneAsgPass) :
    astEq (run_pass_list [inlinePass, foldPass, pruneCfgPass, pruneAsgPass]
      q).1 q.1 ∧
    (run_pass_list [inlinePass, foldPass, pruneCfgPass, pruneAsgPass] q).2 =
      q.2 := by
  have hcong : PassCongruent astEq
      (run_pass_list [inlinePass, foldPass, pruneCfgPass, pruneAsgPass]) := by
    apply run_pass_list_congruent
    intro f hf
    simp only [List.mem_cons, List.not_mem_nil, or_false] at hf
    rcases hf with rfl | rfl | rfl | rfl
    · exact h1
    · exact h2
    · exact h3
    · exact h4
  induction hrun with
  | done t c hEq hC => exact hcong _ (t, c) hEq hC
  | next t c r hne hrun ih => exact ih

/-- C3 witness: the theorem applied with all four passes instantiated to the
identity (trivially congruent) and `ast_equal` instantiated to equality on
`Nat` trees: `(5, 7)` is already a fixed point, and one more sweep leaves it
unchanged. -/
theorem claim_C3_witness :
    (run_pass_list [id, id, id, id] ((5 : Nat), (7 : Nat))).1 = 5 ∧
    (run_pass_list [id, id, id, id] ((5 : Nat), (7 : Nat))).2 = 7 :=
  claim_C3_fixed_point_stable (Eq : Nat → Nat → Prop) id id id id
    (5, 7) (5, 7)
    (RunComponents.done 5 7 rfl rfl)
    (fun _ _ ha hb => ⟨ha, hb⟩) (fun _ _ ha hb => ⟨ha, hb⟩)
    (fun _ _ ha hb => ⟨ha, hb⟩) (fun _ _ ha hb => ⟨ha, hb⟩)

/-!
## Fresh-name generator (`peval/core/gensym.py`)

`GenSym` keeps the frozen set of taken names the generator was seeded with
and the per-tag counters (the source's `defaultdict(lambda: 1)` is a total
function).  A generated name is `"__peval_" + tag + "_" + str(counter)`;
`natStr` is decimal printing of the counter (what Python's `str` produces on
a natural number), implemented with structural recursion on a fuel bound so
that concrete instances evaluate. -/

/-- One decimal digit as a character. -/
def decChar : Nat → Char
  | 0 => '0'
  | 1 => '1'
  | 2 => '2'
  | 3 => '3'
  | 4 => '4'
  | 5 => '5'
  | 6 => '6'
  | 7 => '7'
  | 8 => '8'
  | 9 => '9'
  | _ => '?'

/-- Digit value of a character (non-digits read as 0). -/
def chVal : Char → Nat
  | '1' => 1
  | '2' => 2
  | '3' => 3
  | '4' => 4
  | '5' => 5
  | '6' => 6
  | '7' => 7
  | '8' => 8
  | '9' => 9
  | _ => 0

/-- Big-endian decimal digit characters of `n` (empty for 0), with enough
fuel. -/
def natStrGo : Nat → Nat → List Char
  | 0, _ => []
  | fuel + 1, n =>
    if n = 0 then [] else natStrGo fuel (n / 10) ++ [decChar (n % 10)]

/-- Python's `str` on a natural number: decimal digits, `"0"` for zero. -/
def natStr (n : Nat) : String :=
  if n = 0 then "0" else ⟨natStrGo n n⟩

/-- Reading a digit string back as a number. -/
def parseNum (l : List Char) : Nat :=
  l.foldl (fun acc c => acc * 10 + chVal c) 0

theorem chVal_decChar : ∀ d, d < 10 → chVal (decChar d) = d := by decide

theorem decChar_ne_underscore : ∀ d, d < 10 → decChar d ≠ '_' := by decide

theorem parseNum_append_digit (l : List Char) (c : Char) :
    parseNum (l ++ [c]) = parseNum l * 10 + chVal c := by
  simp [parseNum, List.foldl_append]

theorem parseNum_natStrGo : ∀ fuel n, n ≤ fuel →
    parseNum (natStrGo fuel n) = n := by
  intro fuel
  induction fuel with
  | zero =>
    intro n hn
    have : n = 0 := Nat.le_zero.mp hn
    subst this
    simp [natStrGo, parseNum]
  | succ fuel ih =>
    intro n hn
    by_cases h0 : n = 0
    · subst h0; simp [natStrGo, parseNum]
    · have hdiv : n / 10 < n := Nat.div_lt_self (Nat.pos_of_ne_zero h0)
        (by norm_num)
      have hfuel : n / 10 ≤ fuel := by omega
      rw [natStrGo, if_neg h0, parseNum_append_digit, ih (n / 10) hfuel,
        chVal_decChar (n % 10) (Nat.mod_lt n (by norm_num))]
      omega

/-- Decimal printing is injective (it has `parseNum` as a left inverse). -/
theorem natStr_inj (m n : Nat) (h : natStr m = natStr n) : m = n := by
  have key : ∀ k, parseNum (natStr k).data = k := by
    intro k
    by_cases hk : k = 0
    · subst hk; simp [natStr, parseNum, chVal]
    · rw [natStr, if_neg hk]
      exact parseNum_natStrGo k k le_rfl
  have := congrArg (fun s => parseNum s.data) h
  simpa [key] using this

theorem natStrGo_no_underscore : ∀ fuel n c, c ∈ natStrGo fuel n →
    c ≠ '_' := by
  intro fuel
  induction fuel with
  | zero => intro n c hc; simp [natStrGo] at hc
  | succ fuel ih =>
    intro n c hc
    by_cases h0 : n = 0
    · subst h0; simp [natStrGo] at hc
    · rw [natStrGo, if_neg h0] at hc
      rcases List.mem_append.mp hc with h | h
      · exact ih (n / 10) c h
      · have : c = decChar (n % 10) := by simpa using h
        subst this
        exact decChar_ne_underscore (n % 10) (Nat.mod_lt n (by norm_num))

theorem natStr_no_underscore (n : Nat) : ∀ c ∈ (natStr n).data, c ≠ '_' := by
  intro c hc
  by_cases h0 : n = 0
  · subst h0
    simp [natStr] at hc
    subst hc
    decide
  · rw [natStr, if_neg h0] at hc
    exact natStrGo_no_underscore n n c hc

/-- Splitting a character list at the last underscore is unambiguous when
the tails are underscore-free. -/
theorem underscore_partition : ∀ (r1 : List Char) (b1 r2 b2 : List Char),
    ('_' ∉ r1) → ('_' ∉ r2) → r1 ++ '_' :: b1 = r2 ++ '_' :: b2 →
    r1 = r2 ∧ b1 = b2 := by
  intro r1
  induction r1 with
  | nil =>
    intro b1 r2 b2 _ h2 h
    cases r2 with
    | nil => simpa using h
    | cons d ds =>
      simp only [List.nil_append, List.cons_append, List.cons.injEq] at h
      exact absurd (h.1 ▸ List.mem_cons_self d ds) h2
  | cons c cs ih =>
    intro b1 r2 b2 h1 h2 h
    cases r2 with
    | nil =>
      simp only [List.nil_append, List.cons_append, List.cons.injEq] at h
      exact absurd (h.1 ▸ List.mem_cons_self c cs) h1
    | cons d ds =>
      simp only [List.cons_append, List.cons.injEq] at h
      have htail := ih b1 ds b2
        (fun hm => h1 (List.mem_cons_of_mem c hm))
        (fun hm => h2 (List.mem_cons_of_mem d hm)) h.2
      exact ⟨by rw [h.1, htail.1], htail.2⟩

/-- The name produced for a tag and counter:
`"__peval_" + tag + "_" + str(counter)` (`GenSym.__call__`). -/
def genName (tag : String) (c : Nat) : String :=
  "__peval_" ++ tag ++ "_" ++ natStr c

/-- Generated names determine their tag and counter: the counter part is the
(underscore-free) segment after the last underscore, and decimal printing is
injective. -/
theorem genName_inj (t1 t2 : String) (c1 c2 : Nat)
    (h : genName t1 c1 = genName t2 c2) : t1 = t2 ∧ c1 = c2 := by
  have hd := congrArg String.data h
  simp only [genName, String.data_append, List.append_assoc] at hd
  have hd' : "__peval_".data ++ (t1.data ++ '_' :: (natStr c1).data) =
      "__peval_".data ++ (t2.data ++ '_' :: (natStr c2).data) := by
    simpa using hd
  have hcl := List.append_cancel_left hd'
  have hrev := congrArg List.reverse hcl
  simp only [List.reverse_append, List.reverse_cons, List.append_assoc,
    List.singleton_append] at hrev
  have hpart := underscore_partition (natStr c1).data.reverse t1.data.reverse
      (natStr c2).data.reverse t2.data.reverse
      (fun hm => natStr_no_underscore c1 '_' (List.mem_reverse.mp hm) rfl)
      (fun hm => natStr_no_underscore c2 '_' (List.mem_reverse.mp hm) rfl)
      hrev
  constructor
  · exact String.ext (List.reverse_injective hpart.2)
  · exact natStr_inj c1 c2 (String.ext (List.reverse_injective hpart.1))

/-- `GenSym` from `peval/core/gensym.py`: the frozen taken-name set and the
per-tag counters (a total function, as the source's `defaultdict`). -/
structure GenSym where
  takenNames : Finset String
  counters : String → Nat

/-- A fresh `GenSym` seeded with a taken-name set; every counter starts at 1
(`defaultdict(lambda: 1)`). -/
def GenSym.initial (taken : Finset String) : GenSym :=
  ⟨taken, fun _ => 1⟩

/-- The `while True` search loop of `GenSym.__call__`: try successive
counters until the generated name is not taken.  The loop always terminates
because the taken set is finite and generated names are pairwise distinct;
here it carries a fuel bound (`searchFree_isSome` shows `card + 1` fuel
always suffices). -/
def searchFree (taken : Finset String) (tag : String) :
    Nat → Nat → Option Nat
  | 0, _ => none
  | fuel + 1, c =>
    if genName tag c ∈ taken then searchFree taken tag fuel (c + 1)
    else some c

theorem searchFree_none_mem (taken : Finset String) (tag : String) :
    ∀ fuel start, searchFree taken tag fuel start = none →
    ∀ i, i < fuel → genName tag (start + i) ∈ taken := by
  intro fuel
  induction fuel with
  | zero => intro start _ i hi; omega
  | succ fuel ih =>
    intro start h i hi
    rw [searchFree] at h
    by_cases hmem : genName tag start ∈ taken
    · rw [if_pos hmem] at h
      cases i with
      | zero => simpa using hmem
      | succ j =>
        have : start + (j + 1) = (start + 1) + j := by omega
        rw [this]
        exact ih (start + 1) h j (by omega)
    · rw [if_neg hmem] at h
      exact absurd h (by simp)

theorem searchFree_isSome (taken : Finset String) (tag : String)
    (fuel start : Nat) (hfuel : taken.card < fuel) :
    (searchFree taken tag fuel start).isSome := by
  by_contra hnone
  rw [Option.not_isSome_iff_eq_none] at hnone
  have hmem := searchFree_none_mem taken tag fuel start hnone
  have hinj : Function.Injective
      (fun i : Fin fuel => genName tag (start + i.val)) := by
    intro i j hij
    have := (genName_inj tag tag (start + i.val) (start + j.val) hij).2
    exact Fin.ext (by omega)
  have hsub : (Finset.univ : Finset (Fin fuel)).image
      (fun i : Fin fuel => genName tag (start + i.val)) ⊆ taken := by
    intro x hx
    obtain ⟨i, _, rfl⟩ := Finset.mem_image.mp hx
    exact hmem i.val i.isLt
  have hcard := Finset.card_le_card hsub
  rw [Finset.card_image_of_injective _ hinj, Finset.card_univ,
    Fintype.card_fin] at hcard
  omega

theorem searchFree_some_spec (taken : Finset String) (tag : String) :
    ∀ fuel start c, searchFree taken tag fuel start = some c →
    start ≤ c ∧ genName tag c ∉ taken := by
  intro fuel
  induction fuel with
  | zero => intro start c h; simp [searchFree] at h
  | succ fuel ih =>
    intro start c h
    rw [searchFree] at h
    by_cases hmem : genName tag start ∈ taken
    · rw [if_pos hmem] at h
      have := ih (start + 1) c h
      exact ⟨by omega, this.2⟩
    · rw [if_neg hmem] at h
      obtain rfl : start = c := by simpa using h
      exact ⟨le_rfl, hmem⟩

/-- `GenSym.__call__`: search from the tag's current counter for the first
free name, return it, and store the successor counter for that tag (the
source stores the post-increment counter).  The `none` branch is unreachable
(`searchFree_isSome`). -/
def GenSym.call (g : GenSym) (tag : String) : String × GenSym :=
  match searchFree g.takenNames tag (g.takenNames.card + 1)
      (g.counters tag) with
  | some c =>
    (genName tag c, ⟨g.takenNames, Function.update g.counters tag (c + 1)⟩)
  | none => ("", g)

theorem GenSym.call_spec (g : GenSym) (tag : String) :
    ∃ c, g.counters tag ≤ c ∧
      (g.call tag).1 = genName tag c ∧
      (g.call tag).1 ∉ g.takenNames ∧
      (g.call tag).2.takenNames = g.takenNames ∧
      (g.call tag).2.counters tag = c + 1 ∧
      (∀ t, t ≠ tag → (g.call tag).2.counters t = g.counters t) := by
  have hs := searchFree_isSome g.takenNames tag (g.takenNames.card + 1)
    (g.counters tag) (Nat.lt_succ_self _)
  obtain ⟨c, hc⟩ := Option.isSome_iff_exists.mp hs
  have hspec := searchFree_some_spec g.takenNames tag _ _ c hc
  refine ⟨c, hspec.1, ?_, ?_, ?_, ?_, ?_⟩
  · simp [GenSym.call, hc]
  · simp [GenSym.call, hc, hspec.2]
  · simp [GenSym.call, hc]
  · simp [GenSym.call, hc, Function.update_same]
  · intro t ht
    simp [GenSym.call, hc, Function.update_noteq ht]

/-- All tags' counters are monotone across one call. -/
theorem GenSym.call_counters_le (g : GenSym) (tag t : String) :
    g.counters t ≤ (g.call tag).2.counters t := by
  obtain ⟨c, hle, _, _, _, hctr, hother⟩ := GenSym.call_spec g tag
  by_cases ht : t = tag
  · subst ht; omega
  · rw [hother t ht]

/-- Threading a generator through a sequence of calls, collecting the
produced names. -/
def runCalls (g : GenSym) : List String → List String × GenSym
  | [] => ([], g)
  | t :: ts =>
    ((g.call t).1 :: (runCalls (g.call t).2 ts).1,
     (runCalls (g.call t).2 ts).2)

theorem runCalls_spec (tags : List String) (g : GenSym) :
    (runCalls g tags).2.takenNames = g.takenNames ∧
    (∀ t, g.counters t ≤ (runCalls g tags).2.counters t) ∧
    (∀ n ∈ (runCalls g tags).1, n ∉ g.takenNames) ∧
    (∀ n ∈ (runCalls g tags).1, ∃ t c, n = genName t c ∧
      g.counters t ≤ c ∧ c < (runCalls g tags).2.counters t) ∧
    (runCalls g tags).1.Nodup := by
  induction tags generalizing g with
  | nil => simp [runCalls]
  | cons t ts ih =>
    obtain ⟨c, hc_le, hname, hfree, htaken, hctr, _⟩ := GenSym.call_spec g t
    obtain ⟨ih1, ih2, ih3, ih4, ih5⟩ := ih (g.call t).2
    have hmono : ∀ u, g.counters u ≤ (runCalls (g.call t).2 ts).2.counters u :=
      fun u => le_trans (GenSym.call_counters_le g t u) (ih2 u)
    refine ⟨?_, ?_, ?_, ?_, ?_⟩
    · show (runCalls (g.call t).2 ts).2.takenNames = g.takenNames
      rw [ih1, htaken]
    · exact hmono
    · intro n hn
      rcases List.mem_cons.mp hn with rfl | hn'
      · exact hfree
      · have := ih3 n hn'
        rwa [htaken] at this
    · intro n hn
      rcases List.mem_cons.mp hn with rfl | hn'
      · refine ⟨t, c, hname, hc_le, ?_⟩
        calc c < c + 1 := Nat.lt_succ_self c
        _ = (g.call t).2.counters t := hctr.symm
        _ ≤ (runCalls (g.call t).2 ts).2.counters t := ih2 t
      · obtain ⟨u, d, hnd, hud, hlt⟩ := ih4 n hn'
        exact ⟨u, d, hnd, le_trans (GenSym.call_counters_le g t u) hud, hlt⟩
    · refine List.nodup_cons.mpr ⟨?_, ih5⟩
      intro hmem
      obtain ⟨u, d, hnd, hud, _⟩ := ih4 _ hmem
      rw [hname] at hnd
      obtain ⟨rfl, rfl⟩ := genName_inj t u c d hnd
      rw [hctr] at hud
      omega

/-- C8: every identifier produced by the fresh-name generator is absent from
the taken-name set it was seeded with; a call only increases the per-tag
counters (strictly for the tag used) and leaves the taken set unchanged; and
along any sequence of calls that threads the returned generator, the
produced names are pairwise distinct and never collide with the taken
names. -/
theorem claim_C8_gensym (g : GenSym) (tag : String) (tags : List String) :
    ((g.call tag).1 ∉ g.takenNames) ∧
    ((g.call tag).2.takenNames = g.takenNames) ∧
    (∀ t, g.counters t ≤ (g.call tag).2.counters t) ∧
    (g.counters tag < (g.call tag).2.counters tag) ∧
    ((runCalls g tags).1.Nodup) ∧
    (∀ n ∈ (runCalls g tags).1, n ∉ g.takenNames) := by
  obtain ⟨c, hc_le, _, hfree, htaken, hctr, _⟩ := GenSym.call_spec g tag
  obtain ⟨_, _, hr3, _, hr5⟩ := runCalls_spec tags g
  exact ⟨hfree, htaken, fun t => GenSym.call_counters_le g tag t,
    by omega, hr5, hr3⟩

/-- C8 witness: seeding with `{"x", "__peval_sym_1"}` and calling twice with
tag `"sym"`, the generator skips the taken `__peval_sym_1`, produces the
distinct fresh names `__peval_sym_2` and `__peval_sym_3`, and neither is in
the seed set. -/
theorem claim_C8_witness :
    (runCalls (GenSym.initial {"x", "__peval_sym_1"}) ["sym", "sym"]).1.Nodup ∧
    ("__peval_sym_2" ∉ ({"x", "__peval_sym_1"} : Finset String)) ∧
    (runCalls (GenSym.initial {"x", "__peval_sym_1"}) ["sym", "sym"]).1 =
      ["__peval_sym_2", "__peval_sym_3"] := by
  refine ⟨(claim_C8_gensym (GenSym.initial {"x", "__peval_sym_1"}) "sym"
    ["sym", "sym"]).2.2.2.2.1, ?_, ?_⟩
  · have hlist : (runCalls (GenSym.initial {"x", "__peval_sym_1"})
        ["sym", "sym"]).1 = ["__peval_sym_2", "__peval_sym_3"] := by decide
    have := (claim_C8_gensym (GenSym.initial {"x", "__peval_sym_1"}) "sym"
      ["sym", "sym"]).2.2.2.2.2 "__peval_sym_2" (by rw [hlist]; simp)
    exact this
  · decide

/-!
## Inliner return-flattening (`peval/components/inline.py`)

The statement AST subset that `_replace_returns` / `_wrap_in_loop` walk.
Expressions are opaque here (`E`); the distinguished literal nodes
`NONE_NODE` / `TRUE_NODE` / `FALSE_NODE` from `peval/core/reify.py` and the
`ast.Name` constructor used for the flag test are supplied by
`InlineNodes`. -/

/-- Statement AST subset. -/
inductive Stmt (E : Type) where
  | assign (target : String) (value : E)
  | exprStmt (value : E)
  | ret (value : E)
  | whileS (test : E) (body orelse : List (Stmt E))
  | forS (target : String) (iter : E) (body orelse : List (Stmt E))
  | ifS (test : E) (body orelse : List (Stmt E))
  | breakS
  | passS

/-- The fixed expression nodes the inliner emits. -/
structure InlineNodes (E : Type) where
  noneNode : E
  trueNode : E
  falseNode : E
  nameNode : String → E

/-- The walker state of `_replace_returns_walker`. -/
structure RRState where
  returnsCtr : Nat
  loopNestingCtr : Nat
  returnsInLoops : Bool
  returnInsideALoop : Bool

mutual

/-- Number of return statements a walk visits (loop and conditional bodies
and else clauses included). -/
def countRetStmt {E : Type} : Stmt E → Nat
  | .ret _ => 1
  | .whileS _ body orelse => countRetBlock body + countRetBlock orelse
  | .forS _ _ body orelse => countRetBlock body + countRetBlock orelse
  | .ifS _ body orelse => countRetBlock body + countRetBlock orelse
  | _ => 0

/-- Total return count of a statement list. -/
def countRetBlock {E : Type} : List (Stmt E) → Nat
  | [] => 0
  | s :: rest => countRetStmt s + countRetBlock rest

end

mutual

/-- One statement of the `_replace_returns_walker` traversal
(`peval/components/inline.py`).  `handle_Return` rewrites a return into an
assignment of its value to the result variable, a flag-set assignment when
inside a loop, and a `break`, incrementing the return counter and recording
loop-returns.  `handle_For`/`handle_While` (via `_handle_loop`) walk the
body at increased nesting, the else clause at the original nesting, then
append a conditional break testing the flag when a return was seen inside a
loop, and reset that flag at root level.  Conditionals walk their blocks;
other statements pass through. -/
def rrStmt {E : Type} (L : InlineNodes E) (returnVar returnFlagVar : String) :
    RRState → Stmt E → RRState × List (Stmt E)
  | st, .ret v =>
    if st.loopNestingCtr > 0 then
      ({ st with
          returnsCtr := st.returnsCtr + 1
          returnsInLoops := true
          returnInsideALoop := true },
       [Stmt.assign returnVar v, Stmt.assign returnFlagVar L.trueNode,
        Stmt.breakS])
    else
      ({ st with returnsCtr := st.returnsCtr + 1 },
       [Stmt.assign returnVar v, Stmt.breakS])
  | st, .whileS t body orelse =>
    let pBody := rrBlock L returnVar returnFlagVar
      { st with loopNestingCtr := st.loopNestingCtr + 1 } body
    let pOrelse := rrBlock L returnVar returnFlagVar
      { pBody.1 with loopNestingCtr := pBody.1.loopNestingCtr - 1 } orelse
    let outNodes :=
      if pOrelse.1.returnInsideALoop then
        [Stmt.whileS t pBody.2 pOrelse.2,
         Stmt.ifS (L.nameNode returnFlagVar) [Stmt.breakS] []]
      else [Stmt.whileS t pBody.2 pOrelse.2]
    let stOut :=
      if pOrelse.1.loopNestingCtr = 0 then
        { pOrelse.1 with returnInsideALoop := false }
      else pOrelse.1
    (stOut, outNodes)
  | st, .forS tgt it body orelse =>
    let pBody := rrBlock L returnVar returnFlagVar
      { st with loopNestingCtr := st.loopNestingCtr + 1 } body
    let pOrelse := rrBlock L returnVar returnFlagVar
      { pBody.1 with loopNestingCtr := pBody.1.loopNestingCtr - 1 } orelse
    let outNodes :=
      if pOrelse.1.returnInsideALoop then
        [Stmt.forS tgt it pBody.2 pOrelse.2,
         Stmt.ifS (L.nameNode returnFlagVar) [Stmt.breakS] []]
      else [Stmt.forS tgt it pBody.2 pOrelse.2]
    let stOut :=
      if pOrelse.1.loopNestingCtr = 0 then
        { pOrelse.1 with returnInsideALoop := false }
      else pOrelse.1
    (stOut, outNodes)
  | st, .ifS t body orelse =>
    let pBody := rrBlock L returnVar returnFlagVar st body
    let pOrelse := rrBlock L returnVar returnFlagVar pBody.1 orelse
    (pOrelse.1, [Stmt.ifS t pBody.2 pOrelse.2])
  | st, .assign tgt v => (st, [Stmt.assign tgt v])
  | st, .exprStmt v => (st, [Stmt.exprStmt v])
  | st, .breakS => (st, [Stmt.breakS])
  | st, .passS => (st, [Stmt.passS])

/-- Block traversal: thread the state statement by statement, splicing each
statement's replacement list into the block. -/
def rrBlock {E : Type} (L : InlineNodes E) (returnVar returnFlagVar : String) :
    RRState → List (Stmt E) → RRState × List (Stmt E)
  | st, [] => (st, [])
  | st, s :: rest =>
    let p := rrStmt L returnVar returnFlagVar st s
    let q := rrBlock L returnVar returnFlagVar p.1 rest
    (q.1, p.2 ++ q.2)

end

/-- `_replace_returns`: run the walker from the zeroed state, returning the
rewritten block, the return count, and the returns-in-loops flag. -/
def replace_returns {E : Type} (L : InlineNodes E)
    (nodes : List (Stmt E)) (returnVar returnFlagVar : String) :
    List (Stmt E) × Nat × Bool :=
  let p := rrBlock L returnVar returnFlagVar ⟨0, 0, false, false⟩ nodes
  (p.2, p.1.returnsCtr, p.1.returnsInLoops)

/-- Whether a statement is a return (`type(node) == ast.Return`). -/
def isRet {E : Type} : Stmt E → Bool
  | .ret _ => true
  | _ => false

/-- Whether a block's final statement is a return. -/
def endsWithRet {E : Type} (l : List (Stmt E)) : Bool :=
  match l.getLast? with
  | some s => isRet s
  | none => false

/-- `_wrap_in_loop` (`peval/components/inline.py`): draw the flag name from
the generator, append an explicit `return None` when the body does not end
in a return, rewrite all returns, and then: exactly one return means no
wrapping loop (drop the trailing `break`); otherwise wrap the rewritten body
in `while True`, preceded by a flag initialization when some return occurred
inside a loop.  The returned binding dictionary is always empty in the
source. -/
def wrap_in_loop {E : Type} (L : InlineNodes E) (gen_sym : GenSym)
    (bodyNodes : List (Stmt E)) (returnName : String) :
    GenSym × List (Stmt E) × SDict E :=
  let returnFlag := (gen_sym.call "return_flag").1
  let g1 := (gen_sym.call "return_flag").2
  let body1 :=
    if endsWithRet bodyNodes then bodyNodes
    else bodyNodes ++ [Stmt.ret L.noneNode]
  let r := replace_returns L body1 returnName returnFlag
  let inlinedBody :=
    if r.2.1 = 1 then r.1.dropLast
    else if r.2.2 then
      [Stmt.assign returnFlag L.falseNode,
       Stmt.whileS L.trueNode r.1 []]
    else [Stmt.whileS L.trueNode r.1 []]
  (g1, inlinedBody, [])

/-- The root-level flag reset does not change the loop-nesting counter. -/
theorem ite_reset_ctr (c : Prop) [Decidable c] (x : RRState) :
    (if c then { x with returnInsideALoop := false } else x).loopNestingCtr =
      x.loopNestingCtr := by
  by_cases h : c <;> simp [h]

/-- The root-level flag reset does not change the return counter. -/
theorem ite_reset_retctr (c : Prop) [Decidable c] (x : RRState) :
    (if c then { x with returnInsideALoop := false } else x).returnsCtr =
      x.returnsCtr := by
  by_cases h : c <;> simp [h]

/-- Reassociating a disjunction of "some returns seen" conditions. -/
theorem or_count_assoc (a : Prop) (m n : Nat) :
    ((a ∨ m ≠ 0) ∨ n ≠ 0) ↔ (a ∨ m + n ≠ 0) := by
  constructor
  · rintro ((h | h) | h)
    · exact Or.inl h
    · right; omega
    · right; omega
  · rintro (h | h)
    · exact Or.inl (Or.inl h)
    · by_cases hm : m = 0
      · right; omega
      · exact Or.inl (Or.inr hm)

mutual

/-- The walker restores the loop-nesting counter after each statement. -/
theorem rrStmt_ctr {E : Type} (L : InlineNodes E) (rv rf : String)
    (st : RRState) (s : Stmt E) :
    (rrStmt L rv rf st s).1.loopNestingCtr = st.loopNestingCtr := by
  cases s with
  | ret v => by_cases h : st.loopNestingCtr > 0 <;> simp [rrStmt, h]
  | whileS t body orelse =>
    have hB := rrBlock_ctr L rv rf
      { st with loopNestingCtr := st.loopNestingCtr + 1 } body
    simp at hB
    have hO := rrBlock_ctr L rv rf
      { (rrBlock L rv rf { st with loopNestingCtr := st.loopNestingCtr + 1 }
          body).1 with
        loopNestingCtr :=
          (rrBlock L rv rf { st with loopNestingCtr := st.loopNestingCtr + 1 }
            body).1.loopNestingCtr - 1 } orelse
    simp [hB] at hO
    simp [rrStmt, apply_ite (fun x : RRState => x.loopNestingCtr), hO, hB]
  | forS tgt it body orelse =>
    have hB := rrBlock_ctr L rv rf
      { st with loopNestingCtr := st.loopNestingCtr + 1 } body
    simp at hB
    have hO := rrBlock_ctr L rv rf
      { (rrBlock L rv rf { st with loopNestingCtr := st.loopNestingCtr + 1 }
          body).1 with
        loopNestingCtr :=
          (rrBlock L rv rf { st with loopNestingCtr := st.loopNestingCtr + 1 }
            body).1.loopNestingCtr - 1 } orelse
    simp [hB] at hO
    simp [rrStmt, apply_ite (fun x : RRState => x.loopNestingCtr), hO, hB]
  | ifS t body orelse =>
    have hB := rrBlock_ctr L rv rf st body
    have hO := rrBlock_ctr L rv rf (rrBlock L rv rf st body).1 orelse
    simp [rrStmt, hO, hB]
  | assign tgt v => simp [rrStmt]
  | exprStmt v => simp [rrStmt]
  | breakS => simp [rrStmt]
  | passS => simp [rrStmt]

/-- Block version of `rrStmt_ctr`. -/
theorem rrBlock_ctr {E : Type} (L : InlineNodes E) (rv rf : String)
    (st : RRState) (l : List (Stmt E)) :
    (rrBlock L rv rf st l).1.loopNestingCtr = st.loopNestingCtr := by
  cases l with
  | nil => simp [rrBlock]
  | cons s rest =>
    have hS := rrStmt_ctr L rv rf st s
    have hR := rrBlock_ctr L rv rf (rrStmt L rv rf st s).1 rest
    simp [rrBlock, hR, hS]

end

mutual

/-- The walker's return counter counts every visited return statement. -/
theorem rrStmt_retctr {E : Type} (L : InlineNodes E) (rv rf : String)
    (st : RRState) (s : Stmt E) :
    (rrStmt L rv rf st s).1.returnsCtr = st.returnsCtr + countRetStmt s := by
  cases s with
  | ret v =>
    by_cases h : st.loopNestingCtr > 0 <;> simp [rrStmt, h, countRetStmt]
  | whileS t body orelse =>
    have hB := rrBlock_retctr L rv rf
      { st with loopNestingCtr := st.loopNestingCtr + 1 } body
    simp at hB
    have hO := rrBlock_retctr L rv rf
      { (rrBlock L rv rf { st with loopNestingCtr := st.loopNestingCtr + 1 }
          body).1 with
        loopNestingCtr :=
          (rrBlock L rv rf { st with loopNestingCtr := st.loopNestingCtr + 1 }
            body).1.loopNestingCtr - 1 } orelse
    simp [hB] at hO
    simp [rrStmt, apply_ite (fun x : RRState => x.returnsCtr), hO, hB, countRetStmt]
    omega
  | forS tgt it body orelse =>
    have hB := rrBlock_retctr L rv rf
      { st with loopNestingCtr := st.loopNestingCtr + 1 } body
    simp at hB
    have hO := rrBlock_retctr L rv rf
      { (rrBlock L rv rf { st with loopNestingCtr := st.loopNestingCtr + 1 }
          body).1 with
        loopNestingCtr :=
          (rrBlock L rv rf { st with loopNestingCtr := st.loopNestingCtr + 1 }
            body).1.loopNestingCtr - 1 } orelse
    simp [hB] at hO
    simp [rrStmt, apply_ite (fun x : RRState => x.returnsCtr), hO, hB, countRetStmt]
    omega
  | ifS t body orelse =>
    have hB := rrBlock_retctr L rv rf st body
    have hO := rrBlock_retctr L rv rf (rrBlock L rv rf st body).1 orelse
    simp [hB] at hO
    simp [rrStmt, hO, hB, countRetStmt]
    omega
  | assign tgt v => simp [rrStmt, countRetStmt]
  | exprStmt v => simp [rrStmt, countRetStmt]
  | breakS => simp [rrStmt, countRetStmt]
  | passS => simp [rrStmt, countRetStmt]

/-- Block version of `rrStmt_retctr`. -/
theorem rrBlock_retctr {E : Type} (L : InlineNodes E) (rv rf : String)
    (st : RRState) (l : List (Stmt E)) :
    (rrBlock L rv rf st l).1.returnsCtr = st.returnsCtr + countRetBlock l := by
  cases l with
  | nil => simp [rrBlock, countRetBlock]
  | cons s rest =>
    have hS := rrStmt_retctr L rv rf st s
    have hR := rrBlock_retctr L rv rf (rrStmt L rv rf st s).1 rest
    simp [rrBlock, hR, hS, countRetBlock]
    omega

end

mutual

/-- Inside a loop (positive nesting counter), the return-inside-a-loop flag
after a statement is set exactly when it was already set or the statement
contains a return. -/
theorem rrStmt_flag {E : Type} (L : InlineNodes E) (rv rf : String)
    (st : RRState) (s : Stmt E) (hpos : st.loopNestingCtr > 0) :
    ((rrStmt L rv rf st s).1.returnInsideALoop = true ↔
      (st.returnInsideALoop = true ∨ countRetStmt s ≠ 0)) := by
  cases s with
  | ret v => simp [rrStmt, hpos, countRetStmt]
  | whileS t body orelse =>
    have hBc := rrBlock_ctr L rv rf
      { st with loopNestingCtr := st.loopNestingCtr + 1 } body
    simp at hBc
    have hBf := rrBlock_flag L rv rf
      { st with loopNestingCtr := st.loopNestingCtr + 1 } body (by simp)
    simp at hBf
    have hOc := rrBlock_ctr L rv rf
      { (rrBlock L rv rf { st with loopNestingCtr := st.loopNestingCtr + 1 }
          body).1 with
        loopNestingCtr :=
          (rrBlock L rv rf { st with loopNestingCtr := st.loopNestingCtr + 1 }
            body).1.loopNestingCtr - 1 } orelse
    simp [hBc] at hOc
    have hOf := rrBlock_flag L rv rf
      { (rrBlock L rv rf { st with loopNestingCtr := st.loopNestingCtr + 1 }
          body).1 with
        loopNestingCtr :=
          (rrBlock L rv rf { st with loopNestingCtr := st.loopNestingCtr + 1 }
            body).1.loopNestingCtr - 1 } orelse (by simp [hBc]; omega)
    simp [hBc, hBf] at hOf
    simp [rrStmt, apply_ite (fun x : RRState => x.returnInsideALoop),
      hBc, hOc, hOf, hpos.ne', countRetStmt]
    by_cases hflag : st.returnInsideALoop = true <;> simp [hflag] <;> omega
  | forS tgt it body orelse =>
    have hBc := rrBlock_ctr L rv rf
      { st with loopNestingCtr := st.loopNestingCtr + 1 } body
    simp at hBc
    have hBf := rrBlock_flag L rv rf
      { st with loopNestingCtr := st.loopNestingCtr + 1 } body (by simp)
    simp at hBf
    have hOc := rrBlock_ctr L rv rf
      { (rrBlock L rv rf { st with loopNestingCtr := st.loopNestingCtr + 1 }
          body).1 with
        loopNestingCtr :=
          (rrBlock L rv rf { st with loopNestingCtr := st.loopNestingCtr + 1 }
            body).1.loopNestingCtr - 1 } orelse
    simp [hBc] at hOc
    have hOf := rrBlock_flag L rv rf
      { (rrBlock L rv rf { st with loopNestingCtr := st.loopNestingCtr + 1 }
          body).1 with
        loopNestingCtr :=
          (rrBlock L rv rf { st with loopNestingCtr := st.loopNestingCtr + 1 }
            body).1.loopNestingCtr - 1 } orelse (by simp [hBc]; omega)
    simp [hBc, hBf] at hOf
    simp [rrStmt, apply_ite (fun x : RRState => x.returnInsideALoop),
      hBc, hOc, hOf, hpos.ne', countRetStmt]
    by_cases hflag : st.returnInsideALoop = true <;> simp [hflag] <;> omega
  | ifS t body orelse =>
    have hBf := rrBlock_flag L rv rf st body hpos
    have hBc := rrBlock_ctr L rv rf st body
    have hOf := rrBlock_flag L rv rf (rrBlock L rv rf st body).1 orelse
      (by rw [hBc]; exact hpos)
    simp [hBf] at hOf
    simp [rrStmt, hOf, countRetStmt]
    by_cases hflag : st.returnInsideALoop = true <;> simp [hflag] <;> omega
  | assign tgt v => simp [rrStmt, countRetStmt]
  | exprStmt v => simp [rrStmt, countRetStmt]
  | breakS => simp [rrStmt, countRetStmt]
  | passS => simp [rrStmt, countRetStmt]

/-- Block version of `rrStmt_flag`. -/
theorem rrBlock_flag {E : Type} (L : InlineNodes E) (rv rf : String)
    (st : RRState) (l : List (Stmt E)) (hpos : st.loopNestingCtr > 0) :
    ((rrBlock L rv rf st l).1.returnInsideALoop = true ↔
      (st.returnInsideALoop = true ∨ countRetBlock l ≠ 0)) := by
  cases l with
  | nil => simp [rrBlock, countRetBlock]
  | cons s rest =>
    have hS := rrStmt_flag L rv rf st s hpos
    have hSc := rrStmt_ctr L rv rf st s
    have hR := rrBlock_flag L rv rf (rrStmt L rv rf st s).1 rest
      (by rw [hSc]; exact hpos)
    simp [hS] at hR
    simp [rrBlock, hR, countRetBlock]
    by_cases hflag : st.returnInsideALoop = true <;> simp [hflag] <;> omega

end

/-- A block ending in an appended return ends in a return. -/
theorem endsWithRet_append_ret {E : Type} (l : List (Stmt E)) (v : E) :
    endsWithRet (l ++ [Stmt.ret v]) = true := by
  induction l with
  | nil => rfl
  | cons s rest ih =>
    cases rest with
    | nil => rfl
    | cons s2 rest2 => simpa [endsWithRet, isRet] using ih

/-- The walker's return counter equals the number of returns in the block. -/
theorem replace_returns_count {E : Type} (L : InlineNodes E)
    (nodes : List (Stmt E)) (rv rf : String) :
    (replace_returns L nodes rv rf).2.1 = countRetBlock nodes := by
  have h := rrBlock_retctr L rv rf ⟨0, 0, false, false⟩ nodes
  simpa [replace_returns] using h

/-- A concrete expression universe for the inliner: expressions are just
strings (`"None"`, `"True"`, `"False"` are the literal nodes, and a name
node is the name itself). -/
def strNodes : InlineNodes String := ⟨"None", "True", "False", fun s => s⟩

/-- C6 counterexample, two parts.

Part 1: for a callee body with *zero* returns (`[e]` where `e` is an
expression statement), the claim's condition for skipping the wrapping loop
("the body's only return is syntactically the final statement and there is
exactly one return in the whole body") is false, yet no wrapping loop is
emitted: the implicit `return None` appended by `_wrap_in_loop` makes the
rewritten return count exactly 1.

Part 2: for `while c: return v / else: while c2: pass`, a return occurs
inside a nested loop, but **no** conditional break testing the return flag
is appended after the enclosing `while c` statement (the claim requires one
after each enclosing loop): walking the else clause resets the
return-inside-a-loop flag at root level, so the conditional break lands
after the inner `while c2` inside the else clause instead. -/
theorem claim_C6_counterexample :
    ((wrap_in_loop strNodes (GenSym.initial ∅) [Stmt.exprStmt "e"] "r").2.1 =
      [Stmt.exprStmt "e", Stmt.assign "r" "None"] ∧
     countRetBlock [Stmt.exprStmt ("e" : String)] = 0) ∧
    (wrap_in_loop strNodes (GenSym.initial ∅)
        [Stmt.whileS "c" [Stmt.ret "v"] [Stmt.whileS "c2" [] []]] "r").2.1 =
      [Stmt.assign "__peval_return_flag_1" "False",
       Stmt.whileS "True"
         [Stmt.whileS "c"
            [Stmt.assign "r" "v",
             Stmt.assign "__peval_return_flag_1" "True",
             Stmt.breakS]
            [Stmt.whileS "c2" [] [],
             Stmt.ifS "__peval_return_flag_1" [Stmt.breakS] []],
          Stmt.assign "r" "None", Stmt.breakS] []] :=
  ⟨⟨rfl, rfl⟩, rfl⟩

/-- C6 (amended): (i) every return statement of the body is rewritten into
an assignment of its value to the result variable followed by a break, with
a flag-set assignment in between when the return sits inside a loop;
(ii) after the implicit trailing `return None` is appended (when the body
does not end in a return), the wrapping loop is skipped exactly when the
normalized body contains exactly one return — which is then necessarily its
final statement; otherwise the body is wrapped in `while True`, preceded by
a `flag = False` initialization exactly when some return occurred inside a
loop; (iii) a loop with an empty else clause whose body contains a return
gets a conditional break testing the flag appended right after it. -/
theorem claim_C6_wrap_in_loop {E : Type} (L : InlineNodes E) (g : GenSym)
    (bodyNodes bw : List (Stmt E)) (returnName rv rf : String)
    (st : RRState) (v t it : E) (tgt : String) :
    (st.loopNestingCtr = 0 →
      rrStmt L rv rf st (Stmt.ret v) =
        ({ st with returnsCtr := st.returnsCtr + 1 },
         [Stmt.assign rv v, Stmt.breakS])) ∧
    (st.loopNestingCtr > 0 →
      rrStmt L rv rf st (Stmt.ret v) =
        (⟨st.returnsCtr + 1, st.loopNestingCtr, true, true⟩,
         [Stmt.assign rv v, Stmt.assign rf L.trueNode, Stmt.breakS])) ∧
    (endsWithRet (if endsWithRet bodyNodes then bodyNodes
      else bodyNodes ++ [Stmt.ret L.noneNode]) = true) ∧
    (countRetBlock (if endsWithRet bodyNodes then bodyNodes
        else bodyNodes ++ [Stmt.ret L.noneNode]) = 1 →
      (wrap_in_loop L g bodyNodes returnName).2.1 =
        (replace_returns L
          (if endsWithRet bodyNodes then bodyNodes
           else bodyNodes ++ [Stmt.ret L.noneNode])
          returnName (g.call "return_flag").1).1.dropLast) ∧
    (countRetBlock (if endsWithRet bodyNodes then bodyNodes
        else bodyNodes ++ [Stmt.ret L.noneNode]) ≠ 1 →
      (replace_returns L
        (if endsWithRet bodyNodes then bodyNodes
         else bodyNodes ++ [Stmt.ret L.noneNode])
        returnName (g.call "return_flag").1).2.2 = false →
      (wrap_in_loop L g bodyNodes returnName).2.1 =
        [Stmt.whileS L.trueNode
          (replace_returns L
            (if endsWithRet bodyNodes then bodyNodes
             else bodyNodes ++ [Stmt.ret L.noneNode])
            returnName (g.call "return_flag").1).1 []]) ∧
    (countRetBlock (if endsWithRet bodyNodes then bodyNodes
        else bodyNodes ++ [Stmt.ret L.noneNode]) ≠ 1 →
      (replace_returns L
        (if endsWithRet bodyNodes then bodyNodes
         else bodyNodes ++ [Stmt.ret L.noneNode])
        returnName (g.call "return_flag").1).2.2 = true →
      (wrap_in_loop L g bodyNodes returnName).2.1 =
        [Stmt.assign (g.call "return_flag").1 L.falseNode,
         Stmt.whileS L.trueNode
          (replace_returns L
            (if endsWithRet bodyNodes then bodyNodes
             else bodyNodes ++ [Stmt.ret L.noneNode])
            returnName (g.call "return_flag").1).1 []]) ∧
    (countRetBlock bw ≠ 0 →
      (rrStmt L rv rf st (Stmt.whileS t bw [])).2 =
        [Stmt.whileS t
          (rrBlock L rv rf
            { st with loopNestingCtr := st.loopNestingCtr + 1 } bw).2 [],
         Stmt.ifS (L.nameNode rf) [Stmt.breakS] []]) ∧
    (countRetBlock bw ≠ 0 →
      (rrStmt L rv rf st (Stmt.forS tgt it bw [])).2 =
        [Stmt.forS tgt it
          (rrBlock L rv rf
            { st with loopNestingCtr := st.loopNestingCtr + 1 } bw).2 [],
         Stmt.ifS (L.nameNode rf) [Stmt.breakS] []]) := by
  refine ⟨?_, ?_, ?_, ?_, ?_, ?_, ?_, ?_⟩
  · intro h
    simp [rrStmt, h]
  · intro h
    simp only [rrStmt, if_pos h]
  · by_cases h : endsWithRet bodyNodes
    · simpa [h] using h
    · simp [h, endsWithRet_append_ret]
  · intro hcnt
    have hr := replace_returns_count L
      (if endsWithRet bodyNodes then bodyNodes
       else bodyNodes ++ [Stmt.ret L.noneNode]) returnName
      (g.call "return_flag").1
    simp only [wrap_in_loop]
    rw [if_pos (by rw [hr]; exact hcnt)]
  · intro hcnt hloops
    have hr := replace_returns_count L
      (if endsWithRet bodyNodes then bodyNodes
       else bodyNodes ++ [Stmt.ret L.noneNode]) returnName
      (g.call "return_flag").1
    simp only [wrap_in_loop]
    rw [if_neg (by rw [hr]; exact hcnt), if_neg (by rw [hloops]; simp)]
  · intro hcnt hloops
    have hr := replace_returns_count L
      (if endsWithRet bodyNodes then bodyNodes
       else bodyNodes ++ [Stmt.ret L.noneNode]) returnName
      (g.call "return_flag").1
    simp only [wrap_in_loop]
    rw [if_neg (by rw [hr]; exact hcnt), if_pos (by rw [hloops])]
  · intro hcnt
    have hBf := rrBlock_flag L rv rf
      { st with loopNestingCtr := st.loopNestingCtr + 1 } bw (by simp)
    simp at hBf
    have hflag := hBf.mpr (Or.inr hcnt)
    simp [rrStmt, rrBlock, hflag]
  · intro hcnt
    have hBf := rrBlock_flag L rv rf
      { st with loopNestingCtr := st.loopNestingCtr + 1 } bw (by simp)
    simp at hBf
    have hflag := hBf.mpr (Or.inr hcnt)
    simp [rrStmt, rrBlock, hflag]

/-- C6 witness: the amended theorem applied concretely — a return inside
`while c: return v` (empty else) is rewritten to assignment + flag-set +
break, and the conditional break is appended right after the loop. -/
theorem claim_C6_witness :
    (rrStmt strNodes "r" "f" ⟨0, 0, false, false⟩
        (Stmt.whileS "c" [Stmt.ret "v"] [])).2 =
      [Stmt.whileS "c"
        [Stmt.assign "r" "v", Stmt.assign "f" "True", Stmt.breakS] [],
       Stmt.ifS "f" [Stmt.breakS] []] ∧
    (wrap_in_loop strNodes (GenSym.initial ∅)
        [Stmt.ret ("v" : String)] "r").2.1 =
      [Stmt.assign "r" "v"] := by
  constructor
  · have h := (claim_C6_wrap_in_loop strNodes (GenSym.initial ∅)
      [Stmt.ret ("v" : String)] [Stmt.ret ("v" : String)] "r" "r" "f"
      ⟨0, 0, false, false⟩ "v" "c" "i" "tg").2.2.2.2.2.2.1
      (by decide)
    rw [h]
    rfl
  · have h := (claim_C6_wrap_in_loop strNodes (GenSym.initial ∅)
      [Stmt.ret ("v" : String)] [Stmt.ret ("v" : String)] "r" "r" "f"
      ⟨0, 0, false, false⟩ "v" "c" "i" "tg").2.2.2.1
      (by decide)
    rw [h]
    rfl

/-!
## The constant-folding pass's binding table (`peval/components/fold.py`)

`fold(tree, constants)` runs the dataflow solver over the tree's CFG and
returns the input binding table updated (`dict.update`, i.e. overwriting on
key collision) with the temp bindings created while evaluating expressions.
The embedding below covers the straight-line statement fragment
(assignments, expression statements, returns) and the expression kinds
name / constant / tuple; `fold_constants` refuses (returns `none`) bodies
outside the fragment, and models only the pass's binding-table component
(the rewritten-tree splice `replace_exprs` does not touch the table).
The solver's `while` loops carry an explicit fuel bound. -/

/-- Lookup in a `Nat`-keyed association dictionary. -/
def nlookup {α : Type} (k : Nat) : List (Nat × α) → Option α
  | [] => none
  | (k', v) :: rest => if k' = k then some v else nlookup k rest

/-- Overwriting insertion (`d[k] = v`). -/
def dinsert {α : Type} (k : String) (v : α) (d : SDict α) : SDict α :=
  d.filter (fun p => p.1 ≠ k) ++ [(k, v)]

/-- `d.update(other)`: insert every entry of `other`, overwriting. -/
def dupdate {α : Type} (d other : SDict α) : SDict α :=
  other.foldl (fun acc p => dinsert p.1 p.2 acc) d

/-- Overwriting insertion for `Nat` keys. -/
def ninsert {α : Type} (k : Nat) (v : α) (d : List (Nat × α)) :
    List (Nat × α) :=
  d.filter (fun p => p.1 ≠ k) ++ [(k, v)]

/-- Lookup after inserting a different key is unchanged. -/
theorem dlookup_dinsert_ne {α : Type} (k k' : String) (v : α) (d : SDict α)
    (h : k ≠ k') : dlookup k (dinsert k' v d) = dlookup k d := by
  rw [dinsert, dlookup_append]
  have : dlookup k (d.filter (fun p => p.1 ≠ k')) = dlookup k d := by
    have := dlookup_filter_key (fun s => decide (s ≠ k')) k d
    simpa [h] using this
  rw [this]
  cases hd : dlookup k d with
  | none =>
    simp [dlookup]
    exact fun hh => h hh.symm
  | some v0 => rfl

/-- `dict.update` preserves every entry whose key the other dict does not
mention. -/
theorem dlookup_dupdate_not_mem {α : Type} (d other : SDict α) (k : String)
    (h : k ∉ other.map Prod.fst) :
    dlookup k (dupdate d other) = dlookup k d := by
  induction other generalizing d with
  | nil => rfl
  | cons p rest ih =>
    have hk : k ≠ p.1 := by
      intro hh
      exact h (by simp [hh])
    show dlookup k (dupdate (dinsert p.1 p.2 d) rest) = dlookup k d
    rw [ih (dinsert p.1 p.2 d) (fun hm => h (by simp [hm]))]
    exact dlookup_dinsert_ne k p.1 p.2 d hk

/-- `Environment.from_dict`: every binding becomes a defined lattice
value. -/
def env_from_dict {V : Type} (d : SDict V) : PEnv V :=
  d.map (fun p => (p.1, PValue.val p.2))

/-- `Environment.known_values`: keep the defined entries. -/
def known_values {V : Type} (e : PEnv V) : SDict V :=
  e.filterMap (fun p =>
    match p.2 with
    | PValue.val v => some (p.1, v)
    | PValue.undefined => none)

/-- The host-side information `reify` needs: which values are representable
as literal syntax, and their literal nodes (`peval/core/reify.py` checks
`bool`/`None`/`str`/`bytes`/`int`/`float`/`complex`). -/
structure ReifyModel (V : Type) where
  litNode : V → Option (Expr V)

/-- `reify` from `peval/core/reify.py`: a literal-representable value
becomes its literal node with no bindings; any other value becomes a name
reference — the preferred name when one exists and no fresh binding is
forced, a gensym `"temp"` name otherwise — together with a one-entry binding
dictionary (emitted in both cases). -/
def reify {V : Type} (R : ReifyModel V) (kv : KnownValue V) (g : GenSym)
    (createBinding : Bool) : Expr V × GenSym × SDict V :=
  match R.litNode kv.value with
  | some node => (node, g, [])
  | none =>
    match kv.preferredName, createBinding with
    | some name, false => (Expr.name name, g, [(name, kv.value)])
    | _, _ =>
      ((Expr.name (g.call "temp").1), (g.call "temp").2,
       [((g.call "temp").1, kv.value)])

mutual

/-- The expression-evaluator fragment used by `fold` over the straight-line
pipeline: `handle_Name` (Known with preferred name when bound, residual
otherwise), `handle_Constant`, `handle_Tuple` on fully-Known elements
(`tupV` is the host tuple constructor, abstract), and the dispatcher's
default pass-through.  The partially-Known tuple path (which would reify
element-wise) is outside the fragment and left residual. -/
def pevalSub {V : Type} (tupV : List V → V) (binds : SDict V) :
    Expr V → EvalRes V
  | .name n =>
    match dlookup n binds with
    | some v => .known ⟨v, some n⟩
    | none => .residual (.name n)
  | .const v => .known ⟨v, none⟩
  | .tuple elts =>
    match pevalSubList tupV binds elts with
    | some vals => .known ⟨tupV vals, none⟩
    | none => .residual (.tuple elts)
  | e => .residual e

/-- Element evaluation for `handle_Tuple`: `some` of the values when every
element is Known. -/
def pevalSubList {V : Type} (tupV : List V → V) (binds : SDict V) :
    List (Expr V) → Option (List V)
  | [] => some []
  | e :: rest =>
    match pevalSub tupV binds e with
    | .known kv => (pevalSubList tupV binds rest).map (kv.value :: ·)
    | .residual _ => none

end

/-- `peval_expression` over the fragment: evaluate, and reify a Known
result (collecting its temp binding); a residual result is returned as-is
with no bindings. -/
def peval_expression_fold {V : Type} (tupV : List V → V) (R : ReifyModel V)
    (node : Expr V) (g : GenSym) (binds : SDict V) (createBinding : Bool) :
    (Option (KnownValue V) × Expr V × SDict V) × GenSym :=
  match pevalSub tupV binds node with
  | .known kv =>
    match reify R kv g createBinding with
    | (n, g', tb) => ((some kv, n, tb), g')
  | .residual n => ((none, n, []), g)

/-- `forward_transfer` (`peval/components/fold.py`) over the fragment: an
assignment evaluates its right-hand side and binds the target to
Known/Unknown accordingly; expression statements and returns evaluate their
expression without changing bindings; anything else passes the environment
through.  (The rewritten expressions are dropped here: they do not feed the
binding table.) -/
def forward_transfer {V : Type} (tupV : List V → V) (R : ReifyModel V)
    (g : GenSym) (inEnv : PEnv V) (stmt : Stmt (Expr V)) :
    GenSym × PEnv V × SDict V :=
  match stmt with
  | .assign target value =>
    match peval_expression_fold tupV R value g (known_values inEnv) false with
    | ((kv?, _, tb), g') =>
      let newVal :=
        match kv? with
        | some kv => PValue.val kv.value
        | none => PValue.undefined
      (g', dinsert target newVal inEnv, tb)
  | .exprStmt value =>
    match peval_expression_fold tupV R value g (known_values inEnv) false with
    | ((_, _, tb), g') => (g', inEnv, tb)
  | .ret value =>
    match peval_expression_fold tupV R value g (known_values inEnv) false with
    | ((_, _, tb), g') => (g', inEnv, tb)
  | _ => (g, inEnv, [])

/-- Insertion of a number into a sorted list. -/
def insertSorted (x : Nat) : List Nat → List Nat
  | [] => [x]
  | y :: ys => if x ≤ y then x :: y :: ys else y :: insertSorted x ys

/-- `sorted(...)` on node ids. -/
def sortNats (l : List Nat) : List Nat := l.foldr insertSorted []

mutual

/-- Names read (in `Load` context) by an expression, in walker order. -/
def exprLoads {V : Type} : Expr V → List String
  | .name n => [n]
  | .const _ => []
  | .tuple elts => exprLoadsList elts
  | .boolop _ values => exprLoadsList values
  | .ifexp t b o => exprLoads t ++ exprLoads b ++ exprLoads o
  | .embeddedKnown _ _ => []

/-- List version of `exprLoads`. -/
def exprLoadsList {V : Type} : List (Expr V) → List String
  | [] => []
  | e :: rest => exprLoads e ++ exprLoadsList rest

end

/-- `analyze_scope`'s `handle_Name` on `Load` names: a name already local is
a used local, otherwise it is recorded global. -/
def scopeLoads (st : Finset String × Finset String) (names : List String) :
    Finset String × Finset String :=
  names.foldl (fun st n => if n ∈ st.1 then st else (st.1, insert n st.2)) st

/-- `analyze_scope` over the straight-line fragment: an assignment's target
(`Store`) becomes local (and leaves the global set), then the value's loads
are processed; expression statements and returns only process loads. -/
def scopeStmt {V : Type} (st : Finset String × Finset String) :
    Stmt (Expr V) → Finset String × Finset String
  | .assign target value =>
    scopeLoads (insert target st.1, st.2.erase target) (exprLoads value)
  | .exprStmt v => scopeLoads st (exprLoads v)
  | .ret v => scopeLoads st (exprLoads v)
  | _ => st

/-- `GenSym.for_tree` seeding: the tree's locals and globals. -/
def scopeTaken {V : Type} (body : List (Stmt (Expr V))) : Finset String :=
  (body.foldl scopeStmt (∅, ∅)).1 ∪ (body.foldl scopeStmt (∅, ∅)).2

/-- Membership in the straight-line statement fragment. -/
def isLineStmt {V : Type} : Stmt (Expr V) → Bool
  | .assign _ _ => true
  | .exprStmt _ => true
  | .ret _ => true
  | _ => false

/-- `_build_cfg` restricted to a straight-line body: node ids are list
positions; a plain statement is its own single exit, chained by an edge to
the next statement; a return is recorded as a jump with no normal exit and
building stops (the source `break`s out of its loop, leaving any following
statements unconnected). -/
def cfgLineGo {V : Type} : Nat → List (Stmt (Expr V)) →
    List (Nat × Stmt (Expr V)) × List (Nat × Nat)
  | _, [] => ([], [])
  | i, s :: rest =>
    match s with
    | .ret v => ([(i, Stmt.ret v)], [])
    | s =>
      match rest with
      | [] => ([(i, s)], [])
      | _ =>
        ((i, s) :: (cfgLineGo (i + 1) rest).1,
         (i, i + 1) :: (cfgLineGo (i + 1) rest).2)

/-- Children of a node in an edge list. -/
def childrenOf (edges : List (Nat × Nat)) (n : Nat) : List Nat :=
  (edges.filter (fun e => e.1 = n)).map (fun e => e.2)

/-- Parents of a node in an edge list. -/
def parentsOf (edges : List (Nat × Nat)) (n : Nat) : List Nat :=
  (edges.filter (fun e => e.2 = n)).map (fun e => e.1)

/-- `get_sorted_nodes` (`peval/components/fold.py`): depth-first preorder
from the entry, pushing each node's children in sorted order on a stack
(so they are visited largest-first, as the source's `append`/`pop` pair
does), skipping already-visited nodes. -/
def dfsSorted (childrenOf : Nat → List Nat) :
    Nat → List Nat → List Nat → List Nat → List Nat
  | 0, _, acc, _ => acc
  | fuel + 1, todo, acc, visited =>
    match todo with
    | [] => acc
    | x :: rest =>
      if x ∈ visited then dfsSorted childrenOf fuel rest acc visited
      else
        dfsSorted childrenOf fuel
          ((sortNats (childrenOf x)).foldl (fun st c => c :: st) rest)
          (acc ++ [x]) (x :: visited)

/-- `get_sorted_nodes` with a fuel bound. -/
def get_sorted_nodes (childrenOf : Nat → List Nat) (enter fuel : Nat) :
    List Nat :=
  dfsSorted childrenOf fuel [enter] [] []

/-- `my_reduce` (`peval/components/fold.py`): a single environment is
returned as-is, otherwise fold the meet over the tail. -/
def my_reduce {V : Type} (f : PEnv V → PEnv V → PEnv V) :
    List (PEnv V) → PEnv V
  | [x] => x
  | x :: xs => xs.foldl f x
  | [] => []

/-- Solver state per CFG node (`State` in `peval/components/fold.py`; the
cached rewritten expressions are dropped — they do not feed the binding
table). -/
structure FoldSt (V : Type) where
  inEnv : PEnv V
  outEnv : PEnv V
  temp : SDict V

/-- The worklist loop of `maximal_fixed_point`: pop the next node, compute
its incoming environment (the entry environment at the entry node, the meet
of the parents' outgoing environments elsewhere), run the transfer
function, store the node's new state, and re-enqueue the node's children
(sorted, those not already pending) when the outgoing environment
changed. -/
def mfpLoop {V : Type} [DecidableEq V] (tupV : List V → V) (R : ReifyModel V)
    (peq : V → V → Option Bool) (nodes : List (Nat × Stmt (Expr V)))
    (edges : List (Nat × Nat)) (enter : Nat) (enterEnv : PEnv V) :
    Nat → GenSym → List (Nat × FoldSt V) → List Nat →
    Option (GenSym × List (Nat × FoldSt V))
  | 0, _, _, _ => none
  | fuel + 1, g, states, todo =>
    match todo with
    | [] => some (g, states)
    | nid :: rest =>
      match nlookup nid nodes with
      | none => none
      | some stmt =>
        let inEnv := if nid = enter then enterEnv
          else my_reduce (meet_envs peq)
            ((parentsOf edges nid).map (fun p =>
              match nlookup p states with
              | some st => st.outEnv
              | none => []))
        match forward_transfer tupV R g inEnv stmt with
        | (g', outEnv, tb) =>
          let oldOut :=
            match nlookup nid states with
            | some st => st.outEnv
            | none => []
          let states' := ninsert nid ⟨inEnv, outEnv, tb⟩ states
          let todo' :=
            if outEnv = oldOut then rest
            else rest ++ ((sortNats (childrenOf edges nid)).filter
              (fun c => ¬ (c ∈ rest)))
          mfpLoop tupV R peq nodes edges enter enterEnv fuel g' states' todo'

/-- The post-convergence collection: union of every node state's temp
bindings (`temp_bindings.update(exprs_temp_bindings)` per node; the
annotation pass does not arise in the fragment). -/
def collect_temp {V : Type} (states : List (Nat × FoldSt V)) : SDict V :=
  states.foldl (fun acc p => dupdate acc p.2.temp) []

/-- The temp bindings created by one run of `fold`'s solver over the
straight-line fragment: build the CFG of the body, seed a generator from
the tree's names, run the solver from the caller-supplied constants, and
collect every node state's temp bindings.  `none` means the body is outside
the straight-line fragment or the fuel ran out. -/
def fold_temp_bindings {V : Type} [DecidableEq V] (tupV : List V → V)
    (R : ReifyModel V) (peq : V → V → Option Bool) (fuel : Nat)
    (body : List (Stmt (Expr V))) (constants : SDict V) :
    Option (SDict V) :=
  if body.isEmpty ∨ ¬ (body.all isLineStmt) then none
  else
    let cfg := cfgLineGo 0 body
    let g0 := GenSym.initial (scopeTaken body)
    let enterEnv := env_from_dict constants
    let states0 := cfg.1.map (fun p => (p.1, (⟨enterEnv, enterEnv, []⟩ : FoldSt V)))
    let todo0 := get_sorted_nodes (childrenOf cfg.2) 0 fuel
    match mfpLoop tupV R peq cfg.1 cfg.2 0 enterEnv fuel g0 states0 todo0 with
    | none => none
    | some (_, states) => some (collect_temp states)

/-- The binding-table component of `fold` (`peval/components/fold.py`):
the caller-supplied constants updated (`dict.update`, overwriting on
collision) with the solver's temp bindings. -/
def fold_constants {V : Type} [DecidableEq V] (tupV : List V → V)
    (R : ReifyModel V) (peq : V → V → Option Bool) (fuel : Nat)
    (body : List (Stmt (Expr V))) (constants : SDict V) :
    Option (SDict V) :=
  (fold_temp_bindings tupV R peq fuel body constants).map
    (fun temps => dupdate constants temps)

/-- `prune_cfg` (`peval/components/prune_cfg.py`): the pass iterates tree
transformations to a fixed point (abstracted as `treeLoop`) and returns the
input binding table verbatim. -/
def prune_cfg {T α : Type} (treeLoop : T → T) (node : T)
    (bindings : SDict α) : T × SDict α :=
  (treeLoop node, bindings)

/-- `prune_assignments` (`peval/components/prune_assignments.py`): the pass
rewrites the tree (abstracted as `treeTransform`) and returns the input
binding table verbatim. -/
def prune_assignments {T α : Type} (treeTransform : T → T) (node : T)
    (constants : SDict α) : T × SDict α :=
  (treeTransform node, constants)

/-- The binding-table flow of `inline_functions`
(`peval/components/inline.py`): the walker threads the table through every
handled call site, and each `_inline` updates it with the binding dictionary
returned by `_wrap_in_loop` (each call site is summarized by the generator,
mangled body and return name `_wrap_in_loop` receives). -/
def inline_functions_constants {E : Type} (L : InlineNodes E)
    (calls : List (GenSym × List (Stmt E) × String)) (constants : SDict E) :
    SDict E :=
  calls.foldl
    (fun acc c => dupdate acc (wrap_in_loop L c.1 c.2.1 c.2.2).2.2) constants

/-- Concrete runtime-value universe for the fold pipeline: integers
(literal-representable), opaque objects, and opaque tuple objects. -/
inductive CVal where
  | int (n : Nat)
  | obj (k : Nat)
  | tupObj (k : Nat)
  deriving DecidableEq

/-- The host tuple constructor, abstract: building a tuple yields a fresh
opaque tuple object. -/
def cTup : List CVal → CVal := fun _ => CVal.tupObj 0

/-- Only integers are literal-representable (`reify`'s
`type(value) in (int, float, complex)` branch). -/
def cReify : ReifyModel CVal := ⟨fun v =>
  match v with
  | .int n => some (.const (.int n))
  | _ => none⟩

/-- Honest equality as the `==` comparison. -/
def cPeq : CVal → CVal → Option Bool := fun a b => some (a == b)

/-- C9 counterexample: run `fold` on the one-statement body
`return (x,)` with the binding table `{"x": <obj>, "__peval_temp_1": 42}`.
The tuple `(x,)` evaluates to a Known non-literal value with no preferred
name, so reifying it creates a temp binding named by the generator — which
is seeded only from the names used in the tree (`{"x"}`), not from the
table's keys, and therefore produces exactly the name `__peval_temp_1`.
The final `constants.update(temp_bindings)` then overwrites the input entry
`("__peval_temp_1", 42)` with the tuple object: the input entry is not
present with the same value in the output table, although the claim
requires every pass to preserve it. -/
theorem claim_C9_counterexample :
    fold_constants cTup cReify cPeq 4
        [Stmt.ret (Expr.tuple [Expr.name "x"])]
        [("x", CVal.obj 0), ("__peval_temp_1", CVal.int 42)] =
      some [("x", CVal.obj 0), ("__peval_temp_1", CVal.tupObj 0)] ∧
    dlookup "__peval_temp_1"
        [("x", CVal.obj 0), ("__peval_temp_1", CVal.int 42)] =
      some (CVal.int 42) ∧
    CVal.tupObj 0 ≠ CVal.int 42 :=
  ⟨rfl, rfl, by decide⟩

/-- C9 (amended): `prune_cfg` and `prune_assignments` return the binding
table verbatim; `inline_functions` updates it only with `_wrap_in_loop`'s
binding dictionary, which is always empty, so the table is returned equal to
the input; `fold` returns the input table updated with the solver's temp
bindings — every input entry whose name is not among the temp-binding names
is preserved with its value, while an entry whose name collides with a
temp-binding name (a reused preferred name, or a generated name present in
the table but absent from the tree) is overwritten. -/
theorem claim_C9_binding_tables {T α E V : Type} [DecidableEq V]
    (treeLoop treeTransform : T → T) (node : T) (bindings : SDict α)
    (L : InlineNodes E) (g : GenSym) (body : List (Stmt E)) (rn : String)
    (calls : List (GenSym × List (Stmt E) × String)) (constants0 : SDict E)
    (tupV : List V → V) (R : ReifyModel V) (peq : V → V → Option Bool)
    (fuel : Nat) (stmts : List (Stmt (Expr V))) (constants : SDict V)
    (temps : SDict V) (k : String) (v : V) :
    ((prune_cfg treeLoop node bindings).2 = bindings) ∧
    ((prune_assignments treeTransform node bindings).2 = bindings) ∧
    ((wrap_in_loop L g body rn).2.2 = []) ∧
    (inline_functions_constants L calls constants0 = constants0) ∧
    (fold_temp_bindings tupV R peq fuel stmts constants = some temps →
      fold_constants tupV R peq fuel stmts constants =
        some (dupdate constants temps)) ∧
    (fold_temp_bindings tupV R peq fuel stmts constants = some temps →
      dlookup k constants = some v → k ∉ temps.map Prod.fst →
      ∀ out, fold_constants tupV R peq fuel stmts constants = some out →
        dlookup k out = some v) := by
  refine ⟨rfl, rfl, rfl, ?_, ?_, ?_⟩
  · induction calls generalizing constants0 with
    | nil => rfl
    | cons c rest ih =>
      show inline_functions_constants L rest
        (dupdate constants0 (wrap_in_loop L c.1 c.2.1 c.2.2).2.2) = constants0
      have hempty : (wrap_in_loop L c.1 c.2.1 c.2.2).2.2 = ([] : SDict E) :=
        rfl
      rw [hempty]
      exact ih constants0
  · intro h
    simp [fold_constants, h]
  · intro h hk hmem out hout
    rw [fold_constants, h] at hout
    simp at hout
    rw [← hout, dlookup_dupdate_not_mem constants temps k hmem]
    exact hk

/-- C9 witness: the amended theorem applied at the counterexample's inputs
— the entry `("x", <obj>)`, whose name is not among the temp-binding names,
survives `fold`; and a one-call inliner run leaves a concrete table
unchanged. -/
theorem claim_C9_witness :
    dlookup "x" [("x", CVal.obj 0), ("__peval_temp_1", CVal.tupObj 0)] =
      some (CVal.obj 0) ∧
    inline_functions_constants strNodes
        [(GenSym.initial ∅, [Stmt.ret "v"], "r")] [("a", "w")] =
      [("a", "w")] := by
  constructor
  · have h := (claim_C9_binding_tables (id : Nat → Nat) id 0 ([] : SDict Nat)
      strNodes (GenSym.initial ∅) [Stmt.ret "v"] "r" [] []
      cTup cReify cPeq 4 [Stmt.ret (Expr.tuple [Expr.name "x"])]
      [("x", CVal.obj 0), ("__peval_temp_1", CVal.int 42)]
      [("__peval_temp_1", CVal.tupObj 0)] "x" (CVal.obj 0)).2.2.2.2.2
      rfl rfl (by decide)
      [("x", CVal.obj 0), ("__peval_temp_1", CVal.tupObj 0)] rfl
    exact h
  · exact (claim_C9_binding_tables (id : Nat → Nat) id 0 ([] : SDict Nat)
      strNodes (GenSym.initial ∅) [Stmt.ret "v"] "r"
      [(GenSym.initial ∅, [Stmt.ret "v"], "r")] [("a", "w")]
      cTup cReify cPeq 4 [Stmt.ret (Expr.tuple [Expr.name "x"])]
      [("x", CVal.obj 0), ("__peval_temp_1", CVal.int 42)]
      [("__peval_temp_1", CVal.tupObj 0)] "x" (CVal.obj 0)).2.2.2.1

end Peval
